import Mathlib

/-!
Shallow embedding of the `ftd-lang/importers` core: the `SUMMARY.md` parser
(`src/book/summary.rs`), the book loader (`src/book/book.rs`), the link
rewriting and code-block normalisation helpers (`src/utils/mod.rs`), and the
line-extraction helper (`src/utils/string.rs`).

Strings from the Rust side are modelled as Lean `String`s (or `List Char`
where character-level reasoning is needed); byte offsets into UTF-8 text are
modelled as character offsets (all parser offsets fall on character
boundaries).  The external Markdown parser (pulldown-cmark) is not part of
the repository; its output is modelled as a flat list of events paired with
source offsets, exactly the shape consumed by `SummaryParser`.
-/

namespace Importers

/-- Code-block kind, mirroring pulldown-cmark `CodeBlockKind`. -/
inductive CodeBlockKind where
  | indented
  | fenced (info : String)
deriving DecidableEq, Repr

/-- Markdown tags, mirroring the `pulldown_cmark::Tag` payloads the summary
parser and transpiler inspect.  `heading lvl` carries the heading level
(1 = H1); `link` carries the link type, destination and title; `other`
carries an identity so that end tags can be matched structurally. -/
inductive MTag where
  | paragraph
  | heading (lvl : Nat)
  | list (first : Option Nat)
  | item
  | link (ty : Nat) (href : String) (title : String)
  | image (ty : Nat) (dest : String) (title : String)
  | codeBlock (kind : CodeBlockKind)
  | other (id : Nat)
deriving DecidableEq, Repr

/-- Markdown events, mirroring `pulldown_cmark::Event`. -/
inductive MEvent where
  | start (t : MTag)
  | stop (t : MTag)
  | text (s : String)
  | code (s : String)
  | html (s : String)
  | softBreak
  | hardBreak
  | rule
  | taskListMarker (b : Bool)
  | footnoteReference (s : String)
deriving DecidableEq, Repr

/-- An item of the parsed summary, mirroring `SummaryItem` with the `Link`
struct flattened into the `link` constructor: name, location, section
number (`SectionNumber` is a list of naturals) and nested items. -/
inductive SItem where
  | link (name : String) (location : Option String) (number : Option (List Nat))
      (nested : List SItem)
  | separator
  | partTitle (title : String)
deriving Repr

/-- The parsed `SUMMARY.md`, mirroring `Summary`. -/
structure Summary where
  title : Option String
  prefix_chapters : List SItem
  numbered_chapters : List SItem
  suffix_chapters : List SItem
deriving Repr

/-- Parser state, mirroring `SummaryParser`: the source text, the remaining
event stream (each event paired with the start of its source range), the
offset of the event most recently taken from the stream, and the one-slot
pushback buffer. -/
structure PState where
  src : List Char
  stream : List (MEvent × Nat)
  offset : Nat
  back : Option MEvent
deriving Repr

/-- Parse errors: `parse` carries the 1-based line/column location computed by
`current_location` plus the message (`SummaryParser::parse_error`); `other`
is an error raised without location information (`get_last_link`). -/
inductive PError where
  | parse (line col : Nat) (msg : String)
  | other (msg : String)
deriving DecidableEq, Repr

/-- Result of running a parser function: success with a value and the state
left behind, a structured error, a Rust panic (failed `assert!`/`expect`/
index out of bounds), or fuel exhaustion of the embedding. -/
inductive PRes (α : Type) where
  | ok (a : α) (st : PState)
  | err (e : PError)
  | panic
  | fuelOut
deriving Repr

/-- `SummaryParser::next_event`: take the buffered event if there is one,
otherwise pull the next event from the stream, recording its offset. -/
def nextEvent (st : PState) : Option MEvent × PState :=
  match st.back with
  | some ev => (some ev, ⟨st.src, st.stream, st.offset, none⟩)
  | none =>
    match st.stream with
    | [] => (none, st)
    | (ev, o) :: rest => (some ev, ⟨st.src, rest, o, none⟩)

/-- `SummaryParser::back`: push an event into the one-slot buffer.  The Rust
code asserts the slot is empty; a violated assertion is modelled as `none`. -/
def pushBack (ev : MEvent) (st : PState) : Option PState :=
  match st.back with
  | none => some ⟨st.src, st.stream, st.offset, some ev⟩
  | some _ => none

/-- Index of the last newline in the given prefix of the source, or 0 when
there is none (`memchr::memrchr(b'\n', previous_text).unwrap_or(0)`). -/
def lastNewlinePos : List Char → Nat
  | [] => 0
  | _ :: rest => if '\n' ∈ rest then lastNewlinePos rest + 1 else 0

/-- `SummaryParser::current_location`: 1-based line of `offset`, and the
column obtained by counting the characters from the last newline before
`offset` (or from the start of the text) up to `offset`. -/
def currentLocation (src : List Char) (offset : Nat) : Nat × Nat :=
  let previous := src.take offset
  let line := previous.count '\n' + 1
  let startOfLine := lastNewlinePos previous
  let col := offset - startOfLine
  (line, col)

/-- `SummaryParser::parse_error`: attach the current location to a message. -/
def parseError (st : PState) (msg : String) : PError :=
  let lc := currentLocation st.src st.offset
  PError.parse lc.1 lc.2 msg

/-- The rendered message of an error, mirroring the `anyhow!` format string
of `parse_error`. -/
def PError.message : PError → String
  | .parse line col msg =>
    "failed to parse SUMMARY.md line " ++ toString line ++ ", column " ++
      toString col ++ ": " ++ msg
  | .other msg => msg

/-- The `collect_events!` macro: drain events straight from the stream (not
through the pushback slot, and without recording offsets) until the
delimiter predicate fires or the stream ends; return the collected events
and the remaining stream. -/
def collectEvents (isDelim : MEvent → Bool) :
    List (MEvent × Nat) → List MEvent × List (MEvent × Nat)
  | [] => ([], [])
  | (ev, _) :: rest =>
    if isDelim ev then ([], rest)
    else
      let r := collectEvents isDelim rest
      (ev :: r.1, r.2)

/-- Delimiter for a link end tag, `Event::End(Tag::Link(..))`. -/
def isLinkEnd : MEvent → Bool
  | .stop (.link _ _ _) => true
  | _ => false

/-- Delimiter for an H1 end tag, `Event::End(Tag::Heading(HeadingLevel::H1, ..))`. -/
def isH1End : MEvent → Bool
  | .stop (.heading 1) => true
  | _ => false

/-- `str::replace("%20", " ")`, used by `parse_link` on the destination. -/
def unescape20 : List Char → List Char
  | '%' :: '2' :: '0' :: rest => ' ' :: unescape20 rest
  | c :: rest => c :: unescape20 rest
  | [] => []

/-- `stringify_events`: keep text and code verbatim, turn soft breaks into
spaces, drop everything else. -/
def stringifyEvents (events : List MEvent) : String :=
  String.join (events.filterMap fun ev =>
    match ev with
    | .text s => some s
    | .code s => some s
    | .softBreak => some " "
    | _ => none)

/-- `SummaryParser::parse_link`: unescape `%20`, collect the link body from
the raw stream up to the link end tag, and return the name and location of
the resulting `Link` (its number is `None` and it has no nested items); an
empty destination yields `location = none`. -/
def parseLink (href : String) (st : PState) : (String × Option String) × PState :=
  let href := String.mk (unescape20 href.data)
  let r := collectEvents isLinkEnd st.stream
  let name := stringifyEvents r.1
  let location := if href = "" then none else some href
  ((name, location), ⟨st.src, r.2, st.offset, st.back⟩)

/-- `SummaryParser::parse_nested_item`: skip paragraph starts, then demand a
link start; anything else (including end of input) is a hard parse error.
The link is numbered `parent ++ [num_existing_items + 1]`. -/
def parseNestedItem (fuel : Nat) (parent : List Nat) (numExisting : Nat)
    (st : PState) : PRes SItem :=
  match fuel with
  | 0 => .fuelOut
  | fuel + 1 =>
    let r := nextEvent st
    match r.1 with
    | some (.start .paragraph) => parseNestedItem fuel parent numExisting r.2
    | some (.start (.link _ href _)) =>
      let lr := parseLink href r.2
      .ok (SItem.link lr.1.1 lr.1.2 (some (parent ++ [numExisting + 1])) []) lr.2
    | _ =>
      .err (parseError r.2
        "The link items for nested chapters must only contain a hyperlink")

/-- The fields of a `Link`, used when `get_last_link` hands back a mutable
reference into the item list. -/
structure LinkParts where
  name : String
  location : Option String
  number : Option (List Nat)
  nested : List SItem

/-- `get_last_link`: split a list of summary items around its last `Link`,
returning the items before it, the link itself and the items after it
(which then contain no links). -/
def splitAtLastLink : List SItem → Option (List SItem × LinkParts × List SItem)
  | [] => none
  | x :: rest =>
    match splitAtLastLink rest with
    | some (before, l, after) => some (x :: before, l, after)
    | none =>
      match x with
      | .link n loc num nst => some ([], ⟨n, loc, num, nst⟩, rest)
      | _ => none

/-- `SummaryParser::parse_nested_numbered`: parse the items of one list at
the nesting level identified by `parent`, accumulating into `items`.  A
nested list start recurses one level deeper and replaces the nested items
of the most recently added link; the `expect` on that link's number is
modelled as `panic`. -/
def parseNestedNumbered (fuel : Nat) (parent : List Nat) (st : PState)
    (items : List SItem) : PRes (List SItem) :=
  match fuel with
  | 0 => .fuelOut
  | fuel + 1 =>
    let r := nextEvent st
    match r.1 with
    | some (.start .item) =>
      match parseNestedItem fuel parent items.length r.2 with
      | .ok it st' => parseNestedNumbered fuel parent st' (items ++ [it])
      | .err e => .err e
      | .panic => .panic
      | .fuelOut => .fuelOut
    | some (.start (.list _)) =>
      if items.isEmpty then parseNestedNumbered fuel parent r.2 items
      else
        match splitAtLastLink items with
        | none => .err (.other
            "Unable to get last link because the list of SummaryItems does not contain any Links")
        | some (before, l, after) =>
          match l.number with
          | none => .panic
          | some num =>
            match parseNestedNumbered fuel num r.2 [] with
            | .ok sub st' =>
              parseNestedNumbered fuel parent st'
                (before ++ [SItem.link l.name l.location l.number sub] ++ after)
            | .err e => .err e
            | .panic => .panic
            | .fuelOut => .fuelOut
    | some (.stop (.list _)) => .ok items r.2
    | some _ => parseNestedNumbered fuel parent r.2 items
    | none => .ok items r.2

/-- The event-draining loop of `parse_numbered`'s catch-all
`Some(Event::Start(other_tag))` arm: read events (through the pushback
slot) until the matching end tag or end of input. -/
def skipUntilEnd (fuel : Nat) (tag : MTag) (st : PState) : Option PState :=
  match fuel with
  | 0 => none
  | fuel + 1 =>
    let r := nextEvent st
    match r.1 with
    | none => some r.2
    | some ev => if ev = .stop tag then some r.2 else skipUntilEnd fuel tag r.2

/-- Add `add` to entry `level` of a section number; out-of-bounds indexing is
a Rust panic, modelled as `none`. -/
def updNum (level add : Nat) (v : List Nat) : Option (List Nat) :=
  if h : level < v.length then some (v.set level (v.get ⟨level, h⟩ + add)) else none

/-- Result of `update_section_numbers`: success, a Rust panic (out-of-bounds
index into a section number), or fuel exhaustion of the embedding. -/
inductive URes where
  | ok (items : List SItem)
  | panic
  | fuelOut
deriving Repr

/-- `update_section_numbers`: add `add` to entry `level` of the number of
every link in the forest (recursing into nested items at the same level).
The recursion of the Rust function is structural on the forest; the
embedding burns one unit of fuel per recursive call. -/
def updateSectionNumbers (fuel level add : Nat) (items : List SItem) : URes :=
  match fuel with
  | 0 => .fuelOut
  | fuel + 1 =>
    match items with
    | [] => .ok []
    | SItem.link n loc num nst :: rest =>
      let num2 : Option (Option (List Nat)) :=
        match num with
        | none => some none
        | some v => (updNum level add v).map some
      match num2, updateSectionNumbers fuel level add nst,
          updateSectionNumbers fuel level add rest with
      | some n2, .ok nst2, .ok rest2 => .ok (SItem.link n loc n2 nst2 :: rest2)
      | none, _, _ => .panic
      | _, .panic, _ => .panic
      | _, _, .panic => .panic
      | _, _, _ => .fuelOut
    | x :: rest =>
      match updateSectionNumbers fuel level add rest with
      | .ok rest2 => .ok (x :: rest2)
      | r => r

/-- `SummaryParser::parse_numbered`: parse one numbered block.  The first
paragraph start is skipped; a later one (or an H1 start) is pushed back and
ends the block; each list is parsed by `parseNestedNumbered` and re-based
by the running count of root items; other tags are drained; rules become
separators. -/
def parseNumbered (fuel : Nat) (rootNumber : List Nat) (rootItems : Nat)
    (st : PState) (first : Bool) (items : List SItem) : PRes (List SItem × Nat) :=
  match fuel with
  | 0 => .fuelOut
  | fuel + 1 =>
    let r := nextEvent st
    match r.1 with
    | some (.start .paragraph) =>
      if first then parseNumbered fuel rootNumber rootItems r.2 false items
      else
        match pushBack (.start .paragraph) r.2 with
        | some st' => .ok (items, rootItems) st'
        | none => .panic
    | some (.start (.heading 1)) =>
      match pushBack (.start (.heading 1)) r.2 with
      | some st' => .ok (items, rootItems) st'
      | none => .panic
    | some (.start (.list k)) =>
      match pushBack (.start (.list k)) r.2 with
      | none => .panic
      | some st' =>
        match parseNestedNumbered fuel rootNumber st' [] with
        | .ok bunch st2 =>
          match updateSectionNumbers fuel 0 rootItems bunch with
          | .panic => .panic
          | .fuelOut => .fuelOut
          | .ok bunch2 =>
            parseNumbered fuel rootNumber (rootItems + bunch2.length) st2 false
              (items ++ bunch2)
        | .err e => .err e
        | .panic => .panic
        | .fuelOut => .fuelOut
    | some (.start tag) =>
      match skipUntilEnd fuel tag r.2 with
      | some st' => parseNumbered fuel rootNumber rootItems st' false items
      | none => .fuelOut
    | some .rule =>
      parseNumbered fuel rootNumber rootItems r.2 false (items ++ [SItem.separator])
    | some _ => parseNumbered fuel rootNumber rootItems r.2 false items
    | none => .ok (items, rootItems) r.2

/-- `SummaryParser::parse_parts`: repeatedly parse an optional H1 part title
followed by a numbered block, threading the root item count so numbering
never resets; a paragraph start (pushed back) or end of input ends the
numbered section. -/
def parseParts (fuel : Nat) (rootNumber : List Nat) (rootItems : Nat)
    (st : PState) (parts : List SItem) : PRes (List SItem × Nat) :=
  match fuel with
  | 0 => .fuelOut
  | fuel + 1 =>
    let r := nextEvent st
    match r.1 with
    | some (.start .paragraph) =>
      match pushBack (.start .paragraph) r.2 with
      | some st' => .ok (parts, rootItems) st'
      | none => .panic
    | some (.start (.heading 1)) =>
      let c := collectEvents isH1End r.2.stream
      let title := stringifyEvents c.1
      let st' : PState := ⟨r.2.src, c.2, r.2.offset, r.2.back⟩
      match parseNumbered fuel rootNumber rootItems st' true [] with
      | .ok (bunch, rootItems2) st2 =>
        parseParts fuel rootNumber rootItems2 st2
          (parts ++ [SItem.partTitle title] ++ bunch)
      | .err e => .err e
      | .panic => .panic
      | .fuelOut => .fuelOut
    | some ev =>
      match pushBack ev r.2 with
      | none => .panic
      | some st' =>
        match parseNumbered fuel rootNumber rootItems st' true [] with
        | .ok (bunch, rootItems2) st2 =>
          parseParts fuel rootNumber rootItems2 st2 (parts ++ bunch)
        | .err e => .err e
        | .panic => .panic
        | .fuelOut => .fuelOut
    | none => .ok (parts, rootItems) r.2

/-- `SummaryParser::parse_affix`: collect links and separators; a list start
or H1 start ends the prefix chapters (pushed back) but is a hard error for
suffix chapters. -/
def parseAffix (fuel : Nat) (isPre : Bool) (st : PState) (items : List SItem) :
    PRes (List SItem) :=
  match fuel with
  | 0 => .fuelOut
  | fuel + 1 =>
    let r := nextEvent st
    match r.1 with
    | some (.start (.list k)) =>
      if isPre then
        match pushBack (.start (.list k)) r.2 with
        | some st' => .ok items st'
        | none => .panic
      else .err (parseError r.2 "Suffix chapters cannot be followed by a list")
    | some (.start (.heading 1)) =>
      if isPre then
        match pushBack (.start (.heading 1)) r.2 with
        | some st' => .ok items st'
        | none => .panic
      else .err (parseError r.2 "Suffix chapters cannot be followed by a list")
    | some (.start (.link _ href _)) =>
      let lr := parseLink href r.2
      parseAffix fuel isPre lr.2 (items ++ [SItem.link lr.1.1 lr.1.2 none []])
    | some .rule => parseAffix fuel isPre r.2 (items ++ [SItem.separator])
    | some _ => parseAffix fuel isPre r.2 items
    | none => .ok items r.2

/-- `SummaryParser::parse_title`: consume a leading H1 as the title, skipping
HTML (comments) before it; anything else is pushed back and there is no
title. -/
def parseTitle (fuel : Nat) (st : PState) : PRes (Option String) :=
  match fuel with
  | 0 => .fuelOut
  | fuel + 1 =>
    let r := nextEvent st
    match r.1 with
    | some (.start (.heading 1)) =>
      let c := collectEvents isH1End r.2.stream
      .ok (some (stringifyEvents c.1)) ⟨r.2.src, c.2, r.2.offset, r.2.back⟩
    | some (.html _) => parseTitle fuel r.2
    | some ev =>
      match pushBack ev r.2 with
      | some st' => .ok none st'
      | none => .panic
    | none => .ok none r.2

/-- `SummaryParser::parse` / `parse_summary`: title, prefix chapters,
numbered chapters (with a fresh root section number and item count), then
suffix chapters. -/
def parseSummary (fuel : Nat) (src : List Char) (events : List (MEvent × Nat)) :
    PRes Summary :=
  let st0 : PState := ⟨src, events, 0, none⟩
  match parseTitle fuel st0 with
  | .ok title st1 =>
    match parseAffix fuel true st1 [] with
    | .ok pre st2 =>
      match parseParts fuel [] 0 st2 [] with
      | .ok (numbered, _) st3 =>
        match parseAffix fuel false st3 [] with
        | .ok suf st4 => .ok ⟨title, pre, numbered, suf⟩ st4
        | .err e => .err e
        | .panic => .panic
        | .fuelOut => .fuelOut
      | .err e => .err e
      | .panic => .panic
      | .fuelOut => .fuelOut
    | .err e => .err e
    | .panic => .panic
    | .fuelOut => .fuelOut
  | .err e => .err e
  | .panic => .panic
  | .fuelOut => .fuelOut

/-- The `Summary` of a successful parse, if any. -/
def resultSummary (r : PRes Summary) : Option Summary :=
  match r with
  | .ok s _ => some s
  | _ => none

/-- Whether a parser run ended in a Rust panic (a failed `assert!`, a failed
`expect`, or an out-of-bounds index). -/
def PRes.isPanic : PRes α → Bool
  | .panic => true
  | _ => false

/-! ## Link rewriting (`src/utils/mod.rs`, `adjust_links::fix`) -/

/-- Whether `c` is in the range `a`-`z`. -/
def isLowerAlpha (c : Char) : Bool :=
  0x61 ≤ c.toNat ∧ c.toNat ≤ 0x7A

/-- Character class `[a-z0-9+.-]` of the scheme regex. -/
def schemeClass (c : Char) : Bool :=
  isLowerAlpha c ∨ (0x30 ≤ c.toNat ∧ c.toNat ≤ 0x39) ∨ c = '+' ∨ c = '.' ∨ c = '-'

/-- After the first character: scan for a `:` preceded only by characters of
the scheme class. -/
def schemeScan : List Char → Bool
  | [] => false
  | c :: rest => if c = ':' then true else schemeClass c && schemeScan rest

/-- The `SCHEME_LINK` regex `^[a-z][a-z0-9+.-]*:`: a lowercase letter followed
by scheme-class characters up to a colon. -/
def schemeMatch (s : List Char) : Bool :=
  match s with
  | [] => false
  | c :: rest => isLowerAlpha c && schemeScan rest

/-- Split a line at the last occurrence of `.md`, returning the text before
it and the text after it. -/
def splitLastMd : List Char → Option (List Char × List Char)
  | [] => none
  | c :: rest =>
    match splitLastMd rest with
    | some (p, s) => some (c :: p, s)
    | none =>
      if c = '.' ∧ rest.take 2 = ['m', 'd'] then some ([], rest.drop 2) else none

/-- The capture groups of the `MD_LINK` regex `(?P<link>.*)\.md(?P<anchor>#.*)?`
under leftmost-first matching: the match lies within the first
newline-delimited segment containing `.md` (the regex `.` does not match a
newline); `link` is greedy, so it extends to the last `.md` of that
segment, and `anchor` is the remainder of the segment when it starts with
`#`. -/
def mdCaptures (s : List Char) : Option (List Char × Option (List Char)) :=
  (s.splitOn '\n').findSome? fun piece =>
    (splitLastMd piece).map fun ps =>
      (ps.1, if ps.2.head? = some '#' then some ps.2 else none)

/-- One step of `Components::parse_next_component_back` over the reversed
path body: the final component (still reversed) together with, when a `/`
preceded it, the rest of the reversed body with that separator consumed. -/
def revSplitComp : List Char → List Char × Option (List Char)
  | [] => ([], none)
  | c :: r =>
    if c = '/' then ([], some r)
    else
      let p := revSplitComp r
      (c :: p.1, p.2)

/-- `Components::trim_right` on the reversed path body: repeatedly drop a
trailing separator, or a trailing bare `.` component together with the
separator before it (both parse to no component and are skipped by the
backwards iterator). -/
def trimJunk : List Char → List Char
  | '/' :: r => trimJunk r
  | ['.'] => []
  | '.' :: '/' :: r => trimJunk r
  | l => l

/-- Rust `Path::parent()` on Unix string paths. The path splits into a
front (`/` root, or a leading `.` current-directory component when there is
no root) and a body; `parent` pops the last real component of the body
(`Normal` or `..`; empty and `.` pieces parse to no component), falling
back to the front `.` component, and returns the original slice up to that
point with trailing junk trimmed, exactly as `Components::as_path` slices
it. It is `none` when the path is empty or holds nothing but a root. -/
def pathParent (p : String) : Option String :=
  match p.data with
  | [] => none
  | c0 :: rest0 =>
    let root : Bool := c0 = '/'
    let curDir : Bool := c0 = '.' && (rest0.isEmpty || rest0.head? == some '/')
    let body := if root || curDir then rest0 else c0 :: rest0
    match trimJunk body.reverse with
    | [] => if curDir then some "" else none
    | rb =>
      let rest2 := trimJunk ((revSplitComp rb).2.getD [])
      some (String.mk
        ((if root then ['/'] else if curDir then ['.'] else []) ++ rest2.reverse))

/-- `str::ends_with(".md")`. -/
def endsWithMd (cs : List Char) : Bool :=
  cs.reverse.take 3 = ['d', 'm', '.']

/-- The tail of the relative-link branch of `fix`: the parent-directory
prefix (followed by a slash when non-empty) and then the `MD_LINK` rewrite
of the destination, or the destination itself when the regex does not
match. -/
def fixRelative (base dest : String) : String :=
  (if base = "" then "" else base ++ "/") ++
    match mdCaptures dest.data with
    | some la => String.mk la.1 ++ ".ftd" ++ String.mk (la.2.getD [])
    | none => dest

/-- `adjust_links::fix`: rewrite one link destination given the optional
source path of the chapter being rendered. A `none` result models the
panic of the parent-directory `expect` when the source path has no parent
(the UTF-8 `expect` on `to_str` cannot fail here, the model paths being
strings already). -/
def fixLink (dest : String) (path : Option String) : Option String :=
  if dest.data.head? = some '#' then
    match path with
    | some p =>
      let base :=
        if endsWithMd p.data then
          String.mk (p.data.take (p.data.length - 3)) ++ ".ftd"
        else p
      some ("/" ++ base ++ "/" ++ dest)
    | none => some dest
  else if schemeMatch dest.data then some dest
  else
    match path with
    | some p => (pathParent p).map fun base => fixRelative base dest
    | none => some (fixRelative "" dest)

/-! ## Code-block info strings (`src/utils/mod.rs`, `clean_codeblock_headers`) -/

/-- Rust `char::is_whitespace`: the Unicode `White_Space` property. -/
def rustIsWhitespace (c : Char) : Bool :=
  c.toNat ∈ ([0x09, 0x0A, 0x0B, 0x0C, 0x0D, 0x20, 0x85, 0xA0, 0x1680,
    0x2000, 0x2001, 0x2002, 0x2003, 0x2004, 0x2005, 0x2006, 0x2007, 0x2008,
    0x2009, 0x200A, 0x2028, 0x2029, 0x202F, 0x205F, 0x3000] : List Nat)

/-- The info-string normalisation inside `clean_codeblock_headers`: map
spaces and tabs to commas, then drop every remaining whitespace
character. -/
def cleanInfo (info : String) : String :=
  String.mk
    (((info.data.map fun c => if c = ' ' ∨ c = '\t' then ',' else c).filter
      fun c => !rustIsWhitespace c))

/-- `clean_codeblock_headers`: normalise the info string of a fenced code
block start event; all other events pass through unchanged. -/
def cleanCodeblockHeaders : MEvent → MEvent
  | .start (.codeBlock (.fenced info)) =>
    .start (.codeBlock (.fenced (cleanInfo info)))
  | e => e

/-! ## Line extraction (`src/utils/string.rs`, `take_lines`) -/

/-- One end of a Rust `RangeBounds<usize>`. -/
inductive RBound where
  | included (n : Nat)
  | excluded (n : Nat)
  | unbounded
deriving DecidableEq, Repr

/-- Strip one trailing carriage return, as `str::lines` does from each piece
whose terminating newline was removed. -/
def stripCr (l : List Char) : List Char :=
  if l.getLast? = some '\r' then l.dropLast else l

/-- Rust `str::lines`: split at `\n`, strip a trailing `\r` from every piece
that had a newline removed, and drop the empty piece after a final
newline. -/
def rustLines (s : List Char) : List (List Char) :=
  let ps := s.splitOn '\n'
  let front := ps.dropLast.map stripCr
  match ps.getLast? with
  | none => []
  | some last => front ++ (if last = [] then [] else [last])

/-- `take_lines`: resolve the start bound, skip that many lines, take lines
according to the end bound (with saturating subtraction), and re-join with
newlines. -/
def takeLines (s : List Char) (startB endB : RBound) : List Char :=
  let start :=
    match startB with
    | .excluded n => n + 1
    | .included n => n
    | .unbounded => 0
  let lines := (rustLines s).drop start
  match endB with
  | .excluded e => List.intercalate ['\n'] (lines.take (e - start))
  | .included e => List.intercalate ['\n'] (lines.take (e + 1 - start))
  | .unbounded => List.intercalate ['\n'] lines

/-! ## Book loading (`src/book/book.rs`) -/

/-- A book item, mirroring `BookItem` with the `Chapter` struct flattened
into the `chapter` constructor (name, content, number, sub-items, path,
source path, parent names). -/
inductive BookItem where
  | chapter (name content : String) (number : Option (List Nat))
      (subItems : List BookItem) (path sourcePath : Option String)
      (parentNames : List String)
  | separator
  | partTitle (title : String)
deriving Repr

/-- The fields of a chapter produced by `Chapter::new` / `Chapter::new_draft`
before its number and sub-items are filled in. -/
structure ChapterCore where
  name : String
  content : String
  path : Option String
  sourcePath : Option String
deriving Repr

/-- Join a path to a base directory, as `Path::join` does for the relative
paths appearing here. -/
def joinPath (dir p : String) : String :=
  if dir = "" then p else dir ++ "/" ++ p

/-- Strip a leading byte-order mark (U+FEFF) from file content. -/
def stripBom (s : String) : String :=
  match s.data with
  | c :: rest => if c.toNat = 0xFEFF then String.mk rest else s
  | [] => s

/-- `Path::strip_prefix(src_dir)` for the location a chapter was read from;
`none` means the `expect("Chapters are always inside a book")` panics. -/
def stripDirBase (dir loc : String) : Option String :=
  if dir = "" then some loc
  else if (dir.data ++ ['/']).isPrefixOf loc.data then
    some (String.mk (loc.data.drop (dir.data.length + 1)))
  else none

/-- The non-recursive part of `load_chapter`: read and BOM-strip the file
behind a located link (the file system is an oracle from paths to file
contents), or make a draft chapter when the link has no location. -/
def loadChapterCore (fs : String → Option String) (srcDir : String)
    (name : String) (location : Option String) : Except String ChapterCore :=
  match location with
  | some loc =>
    let resolved := if loc.data.head? = some '/' then loc else joinPath srcDir loc
    match fs resolved with
    | none => .error ("Chapter file not found, " ++ loc)
    | some content =>
      let content := stripBom content
      match stripDirBase srcDir resolved with
      | none => .error "panic: Chapters are always inside a book"
      | some stripped => .ok ⟨name, content, some stripped, some stripped⟩
  | none => .ok ⟨name, "", none, none⟩

/-- Result of loading summary items: the loaded book items, an error, or
fuel exhaustion of the embedding. -/
inductive LRes (α : Type) where
  | ok (a : α)
  | err (msg : String)
  | fuelOut
deriving Repr

/-- `load_summary_item`/`load_chapter` over a list of summary items:
separators and part titles map across; a link is loaded as a chapter
(`loadChapterCore`), its number copied from the link, its nested items
loaded recursively with the chapter's name appended to the parent names.
The Rust recursion is structural on the summary tree; the embedding burns
one unit of fuel per recursive call. -/
def loadItems (fuel : Nat) (fs : String → Option String) (srcDir : String)
    (parents : List String) (items : List SItem) : LRes (List BookItem) :=
  match fuel with
  | 0 => .fuelOut
  | fuel + 1 =>
    match items with
    | [] => .ok []
    | .separator :: rest =>
      match loadItems fuel fs srcDir parents rest with
      | .ok bs => .ok (.separator :: bs)
      | r => r
    | .partTitle t :: rest =>
      match loadItems fuel fs srcDir parents rest with
      | .ok bs => .ok (.partTitle t :: bs)
      | r => r
    | .link name location number nested :: rest =>
      match loadChapterCore fs srcDir name location with
      | .error e => .err e
      | .ok core =>
        match loadItems fuel fs srcDir (parents ++ [name]) nested with
        | .ok subs =>
          match loadItems fuel fs srcDir parents rest with
          | .ok bs =>
            .ok (.chapter core.name core.content number subs core.path
              core.sourcePath parents :: bs)
          | r => r
        | .err e => .err e
        | .fuelOut => .fuelOut

/-- `load_book_from_disk`: load prefix, numbered and suffix items in order. -/
def loadBookFromDisk (fuel : Nat) (fs : String → Option String) (srcDir : String)
    (summary : Summary) : LRes (List BookItem) :=
  loadItems fuel fs srcDir []
    (summary.prefix_chapters ++ summary.numbered_chapters ++ summary.suffix_chapters)

/-! ## Spec-side definitions used to state the claims -/

/-- The per-character normalisation the spec describes for fenced info
strings: spaces and tabs become commas, all other whitespace characters
are removed, every other character is kept unchanged. -/
def cleanInfoSpecChar (c : Char) : Option Char :=
  if c = ' ' ∨ c = '\t' then some ','
  else if rustIsWhitespace c then none
  else some c

/-- The resolved 0-based index of the first selected line of a range. -/
def startOf : RBound → Nat
  | .included n => n
  | .excluded n => n + 1
  | .unbounded => 0

/-- Whether a line index satisfies the lower bound of a range. -/
def lowOk : RBound → Nat → Bool
  | .included n, i => Nat.ble n i
  | .excluded n, i => Nat.blt n i
  | .unbounded, _ => true

/-- Whether a line index satisfies the upper bound of a range. -/
def highOk : RBound → Nat → Bool
  | .included n, i => Nat.ble i n
  | .excluded n, i => Nat.blt i n
  | .unbounded, _ => true

/-- The "selected subset of `s`'s lines" in the spec's words: the lines
whose 0-based index satisfies both bounds of the range, in order. -/
def specSelect (lines : List (List Char)) (sb eb : RBound) : List (List Char) :=
  (lines.enum.filter fun p => lowOk sb p.1 && highOk eb p.1).map Prod.snd

/-- Whether a summary item is a `Link`. -/
def SItem.isLink : SItem → Bool
  | .link _ _ _ _ => true
  | _ => false

/-- Every item of the list is a `Link`. -/
def AllLinks (items : List SItem) : Prop :=
  ∀ it ∈ items, it.isLink = true

/-- The number of `Link` items at the top level of a list. -/
def linkCount (items : List SItem) : Nat :=
  items.countP SItem.isLink

/-- The numbering invariant of the spec: `GoodSeq parent n items` says that,
ignoring separators and part titles, the links of `items` carry the section
numbers `parent ++ [n+1]`, `parent ++ [n+2]`, ... in source order with no
gaps (not resetting at a part title), and that each link's nested items
satisfy the same invariant with that link's number as the parent — i.e.
every nested link's number extends its parent's number by its 1-based
sibling index. -/
inductive GoodSeq : List Nat → Nat → List SItem → Prop where
  | nil (parent : List Nat) (n : Nat) : GoodSeq parent n []
  | sep (parent : List Nat) (n : Nat) (rest : List SItem) :
      GoodSeq parent n rest → GoodSeq parent n (SItem.separator :: rest)
  | part (parent : List Nat) (n : Nat) (t : String) (rest : List SItem) :
      GoodSeq parent n rest → GoodSeq parent n (SItem.partTitle t :: rest)
  | link (parent : List Nat) (n : Nat) (name : String) (loc : Option String)
      (nested rest : List SItem) :
      GoodSeq (parent ++ [n + 1]) 0 nested →
      GoodSeq parent (n + 1) rest →
      GoodSeq parent n
        (SItem.link name loc (some (parent ++ [n + 1])) nested :: rest)

/-! ## Concrete inputs -/

/-- The SUMMARY text of the end-to-end scenario (spec section 8). -/
def srcC1 : List Char :=
  ("# Summary\n[Introduction](intro.md)\n# Part One\n- [Chapter 1](ch1.md)\n  - [Chapter 1a](ch1a.md)\n- [Chapter 2](ch2.md)\n").data

/-- The flat event stream the external Markdown parser (pulldown-cmark)
emits for `srcC1`, paired with the byte offsets at which each event's
source range starts: an H1 heading, a paragraph with one inline link, a
second H1, and a tight two-item list whose first item carries a nested
one-item list. -/
def eventsC1 : List (MEvent × Nat) :=
  [ (.start (.heading 1), 0), (.text "Summary", 2), (.stop (.heading 1), 0),
    (.start .paragraph, 10), (.start (.link 0 "intro.md" ""), 10),
    (.text "Introduction", 11), (.stop (.link 0 "intro.md" ""), 10),
    (.stop .paragraph, 10),
    (.start (.heading 1), 35), (.text "Part One", 37), (.stop (.heading 1), 35),
    (.start (.list none), 46), (.start .item, 46),
    (.start (.link 0 "ch1.md" ""), 48), (.text "Chapter 1", 49),
    (.stop (.link 0 "ch1.md" ""), 48),
    (.start (.list none), 70), (.start .item, 70),
    (.start (.link 0 "ch1a.md" ""), 72), (.text "Chapter 1a", 73),
    (.stop (.link 0 "ch1a.md" ""), 72), (.stop .item, 70), (.stop (.list none), 70),
    (.stop .item, 46), (.start .item, 94),
    (.start (.link 0 "ch2.md" ""), 96), (.text "Chapter 2", 97),
    (.stop (.link 0 "ch2.md" ""), 96), (.stop .item, 94), (.stop (.list none), 46) ]

/-! ## Claim theorems -/

/-- C1 (counterexample): parsing the end-to-end SUMMARY text does not yield
the claimed summary with `title = none` — `parse_title` consumes the
leading `# Summary` heading, so the title is `some "Summary"`. -/
theorem c1_counterexample :
    resultSummary (parseSummary 200 srcC1 eventsC1) ≠
      some ⟨none,
        [SItem.link "Introduction" (some "intro.md") none []],
        [SItem.partTitle "Part One",
         SItem.link "Chapter 1" (some "ch1.md") (some [1])
           [SItem.link "Chapter 1a" (some "ch1a.md") (some [1, 1]) []],
         SItem.link "Chapter 2" (some "ch2.md") (some [2]) []],
        []⟩ := by
  intro h
  have hact : resultSummary (parseSummary 200 srcC1 eventsC1) =
      some ⟨some "Summary",
        [SItem.link "Introduction" (some "intro.md") none []],
        [SItem.partTitle "Part One",
         SItem.link "Chapter 1" (some "ch1.md") (some [1])
           [SItem.link "Chapter 1a" (some "ch1a.md") (some [1, 1]) []],
         SItem.link "Chapter 2" (some "ch2.md") (some [2]) []],
        []⟩ := rfl
  rw [hact] at h
  simp [Summary.mk.injEq] at h

/-- C1 (amended): parsing the end-to-end SUMMARY text yields the title
`some "Summary"`, one prefix link `Introduction` → `intro.md` with no
number, then `PartTitle "Part One"`, `Chapter 1` numbered 1 with nested
`Chapter 1a` numbered 1.1, `Chapter 2` numbered 2, and no suffix
chapters. -/
theorem c1_parse_example :
    resultSummary (parseSummary 200 srcC1 eventsC1) =
      some ⟨some "Summary",
        [SItem.link "Introduction" (some "intro.md") none []],
        [SItem.partTitle "Part One",
         SItem.link "Chapter 1" (some "ch1.md") (some [1])
           [SItem.link "Chapter 1a" (some "ch1a.md") (some [1, 1]) []],
         SItem.link "Chapter 2" (some "ch2.md") (some [2]) []],
        []⟩ := rfl

/-- C3 (counterexample): the fragment-only link `#foo` in a chapter at
`guide/intro.md` is not rewritten to `/guide/intro.ftd#foo` — the code
formats the result as `"/{base}/{dest}"`, which inserts a `/` between the
rewritten path and the fragment. -/
theorem c3_counterexample :
    fixLink "#foo" (some "guide/intro.md") ≠ some "/guide/intro.ftd#foo" := by
  decide

/-- C3 (amended): the fragment-only link `#foo` in a chapter at
`guide/intro.md` is rewritten to `/guide/intro.ftd/#foo` (extension
swapped, fragment appended after a separating slash). -/
theorem c3_fragment_link_rewrite :
    fixLink "#foo" (some "guide/intro.md") = some "/guide/intro.ftd/#foo" := rfl

/-- C4 (counterexample): the relative link `./other.md#section` in a chapter
at `guide/intro.md` is not rewritten to `guide/other.ftd#section` — the
`link` capture of the `MD_LINK` regex keeps the leading `./`. -/
theorem c4_counterexample :
    fixLink "./other.md#section" (some "guide/intro.md") ≠
      some "guide/other.ftd#section" := by decide

/-- C4 (amended): the relative link `./other.md#section` in a chapter at
`guide/intro.md` becomes `guide/./other.ftd#section` (parent directory
prefixed, extension swapped, fragment preserved, leading `./` kept), and
the absolute-scheme link `https://x.com/y.md` is returned unchanged. -/
theorem c4_relative_link_rewrite :
    fixLink "./other.md#section" (some "guide/intro.md") =
        some "guide/./other.ftd#section" ∧
      fixLink "https://x.com/y.md" (some "guide/intro.md") =
        some "https://x.com/y.md" :=
  ⟨rfl, rfl⟩

/-- C8: the fenced info string `lang rust,edition2021` normalises to
`lang,rust,edition2021`, and in general `clean_codeblock_headers` rewrites
a fenced info string character-wise: spaces and tabs become commas, other
whitespace is removed, non-whitespace characters are kept in order. -/
theorem c8_codeblock_info_normalisation :
    cleanCodeblockHeaders (.start (.codeBlock (.fenced "lang rust,edition2021"))) =
        .start (.codeBlock (.fenced "lang,rust,edition2021")) ∧
      ∀ info : String,
        cleanInfo info = String.mk (info.data.filterMap cleanInfoSpecChar) := by
  refine ⟨by decide, fun info => ?_⟩
  show String.mk _ = String.mk _
  congr 1
  induction info.data with
  | nil => rfl
  | cons c rest ih =>
    by_cases h : c = ' ' ∨ c = '\t'
    · simp only [List.map_cons, if_pos h, List.filterMap_cons, cleanInfoSpecChar,
        List.filter_cons]
      have hc : rustIsWhitespace ',' = false := by decide
      simp [hc, ih]
    · by_cases hw : rustIsWhitespace c
      · simp only [List.map_cons, if_neg h, List.filterMap_cons, cleanInfoSpecChar,
          List.filter_cons]
        simp [hw, ih, if_neg h]
      · simp only [List.map_cons, if_neg h, List.filterMap_cons, cleanInfoSpecChar,
          List.filter_cons]
        simp [hw, ih, if_neg h]

/-- C10: a relative URL with no scheme, no leading `#` and no `.md` match
is, under a known source path, prefixed with the path's parent directory
followed by a slash when that directory is non-empty, and left unchanged
when it is empty, the URL text itself kept verbatim; when the source path
has no parent at all the program panics (the `none` result). With no source
path the URL is returned unchanged. -/
theorem c10_plain_relative_link (dest p : String)
    (h1 : dest.data.head? ≠ some '#')
    (h2 : schemeMatch dest.data = false)
    (h3 : mdCaptures dest.data = none) :
    fixLink dest (some p) =
        Option.map (fun par => (if par = "" then "" else par ++ "/") ++ dest)
          (pathParent p) ∧
      fixLink dest none = some dest := by
  constructor
  · show (if dest.data.head? = some '#' then _ else _) = _
    rw [if_neg h1]
    show (if schemeMatch dest.data = true then _ else _) = _
    rw [h2]
    simp only [Bool.false_eq_true, if_false]
    cases hp : pathParent p with
    | none => rfl
    | some par =>
      show some (fixRelative par dest) =
        some ((if par = "" then "" else par ++ "/") ++ dest)
      simp only [fixRelative, h3]
  · show (if dest.data.head? = some '#' then _ else _) = _
    rw [if_neg h1]
    show (if schemeMatch dest.data = true then _ else _) = _
    rw [h2]
    simp only [Bool.false_eq_true, if_false]
    show some (fixRelative "" dest) = some dest
    simp only [fixRelative, h3]
    show some ("" ++ dest) = some dest
    rw [String.empty_append]

/-- C10 (witness): the URL `images/pic.png` in a chapter at
`guide/intro.md`. -/
theorem c10_plain_relative_link_witness :
    fixLink "images/pic.png" (some "guide/intro.md") =
        some "guide/images/pic.png" ∧
      fixLink "images/pic.png" none = some "images/pic.png" := by
  have h := c10_plain_relative_link "images/pic.png" "guide/intro.md"
    (by decide) (by rfl) (by rfl)
  exact ⟨h.1.trans (by rfl), h.2⟩

/-- The last-newline position lies strictly before the end of a character
list that contains a newline. -/
theorem lastNewlinePos_lt_length {l : List Char} (h : '\n' ∈ l) :
    lastNewlinePos l < l.length := by
  induction l with
  | nil => cases h
  | cons c rest ih =>
    by_cases hr : '\n' ∈ rest
    · simp only [lastNewlinePos, if_pos hr, List.length_cons]
      exact Nat.succ_lt_succ (ih hr)
    · simp only [lastNewlinePos, if_neg hr, List.length_cons]
      exact Nat.succ_pos _

/-- C5: in suffix mode (`parse_affix` with `is_prefix = false`), a list
start or H1 start read from the stream produces the parse error
`Suffix chapters cannot be followed by a list`, located at
`current_location` of the offending event's byte offset; the line is
1-based, and so is the column whenever a newline precedes the offset
(which holds in every run reaching suffix mode with the offending event on
a later line). -/
theorem c5_suffix_list_error (fuel : Nat) (st st' : PState) (ev : MEvent)
    (items : List SItem)
    (hnext : nextEvent st = (some ev, st'))
    (hev : (∃ k, ev = .start (.list k)) ∨ ev = .start (.heading 1))
    (hnl : '\n' ∈ st'.src.take st'.offset) :
    parseAffix (fuel + 1) false st items =
        .err (.parse (currentLocation st'.src st'.offset).1
          (currentLocation st'.src st'.offset).2
          "Suffix chapters cannot be followed by a list") ∧
      1 ≤ (currentLocation st'.src st'.offset).1 ∧
      1 ≤ (currentLocation st'.src st'.offset).2 := by
  refine ⟨?_, Nat.succ_le_succ (Nat.zero_le _), ?_⟩
  · rcases hev with ⟨k, rfl⟩ | rfl <;>
      simp only [parseAffix, hnext, Bool.false_eq_true, if_false, parseError]
  · have hlt : lastNewlinePos (st'.src.take st'.offset) <
        (st'.src.take st'.offset).length := lastNewlinePos_lt_length hnl
    have hlen : (st'.src.take st'.offset).length ≤ st'.offset :=
      le_of_eq_of_le (List.length_take _ _) (Nat.min_le_left _ _)
    show 1 ≤ st'.offset - lastNewlinePos (st'.src.take st'.offset)
    omega

/-- The SUMMARY text of the suffix-error scenario: a list, a paragraph, then
a second list (which is illegal in suffix position). -/
def srcC5 : List Char := ("- [a](a.md)\n\ntext\n\n- [b](b.md)\n").data

/-- C5 (witness): the suffix parser hitting the list start at byte offset 19
of `srcC5` (line 5, column 1). -/
theorem c5_suffix_list_error_witness :
    parseAffix 1 false ⟨srcC5, [(.start (.list none), 19)], 13, none⟩ [] =
      .err (.parse 5 1 "Suffix chapters cannot be followed by a list") := by
  have h := c5_suffix_list_error 0 ⟨srcC5, [(.start (.list none), 19)], 13, none⟩
    ⟨srcC5, [], 19, none⟩ (.start (.list none)) [] rfl (Or.inl ⟨none, rfl⟩)
    (by decide)
  exact h.1.trans (by rfl)

/-- C6: a summary link written with an empty destination parses to a `Link`
with `location = none`, and loading a link with no location produces a
draft chapter: `path = none`, `source_path = none` and empty content. -/
theorem c6_draft_chapter :
    (∀ st : PState, (parseLink "" st).1.2 = none) ∧
      ∀ (fuel : Nat) (fs : String → Option String) (srcDir : String)
        (parents : List String) (name : String) (number : Option (List Nat))
        (nested rest : List SItem) (out : List BookItem),
        loadItems fuel fs srcDir parents
            (.link name none number nested :: rest) = .ok out →
        ∃ subs bs,
          out = .chapter name "" number subs none none parents :: bs := by
  refine ⟨fun st => rfl, ?_⟩
  intro fuel fs srcDir parents name number nested rest out h
  match fuel with
  | 0 => exact absurd h (by simp [loadItems])
  | fuel + 1 =>
    rw [loadItems] at h
    have hcore : loadChapterCore fs srcDir name none = .ok ⟨name, "", none, none⟩ := rfl
    rw [hcore] at h
    revert h
    cases hsub : loadItems fuel fs srcDir (parents ++ [name]) nested with
    | ok subs =>
      cases hrest : loadItems fuel fs srcDir parents rest with
      | ok bs =>
        intro h
        cases h
        exact ⟨subs, bs, rfl⟩
      | err e => intro h; cases h
      | fuelOut => intro h; cases h
    | err e => intro h; cases h
    | fuelOut => intro h; cases h

/-- C6 (witness): loading the parsed draft link `[Draft]()`. -/
theorem c6_draft_chapter_witness :
    (parseLink "" ⟨[], [], 0, none⟩).1.2 = none ∧
      ∃ subs bs,
        ([BookItem.chapter "Draft" "" none [] none none []] : List BookItem) =
          .chapter "Draft" "" none subs none none [] :: bs :=
  ⟨c6_draft_chapter.1 ⟨[], [], 0, none⟩,
    c6_draft_chapter.2 2 (fun _ => none) "src" [] "Draft" none [] []
      [BookItem.chapter "Draft" "" none [] none none []] (by rfl)⟩

theorem selTake {α : Type} (l : List α) : ∀ (k a b : Nat),
    ((List.enumFrom k l).filter fun p => Nat.ble a p.1 && Nat.blt p.1 b).map Prod.snd =
      (l.drop (a - k)).take (b - max a k) := by
  induction l with
  | nil => intro k a b; simp
  | cons x xs ih =>
    intro k a b
    rw [List.enumFrom_cons, List.filter_cons]
    by_cases h1 : a ≤ k ∧ k < b
    · have hble : (Nat.ble a k && Nat.blt k b) = true := by
        simp only [Bool.and_eq_true, Nat.ble_eq, Nat.blt_eq]
        exact h1
      simp only [hble, if_true, List.map_cons, ih]
      have e1 : a - k = 0 := by omega
      have e2 : a - (k + 1) = 0 := by omega
      have e3 : max a k = k := by omega
      have e4 : max a (k + 1) = k + 1 := by omega
      have e5 : b - k = (b - (k + 1)) + 1 := by omega
      rw [e1, e2, e3, e4, e5, List.drop_zero, List.drop_zero, List.take_succ_cons]
    · have hble : (Nat.ble a k && Nat.blt k b) = false := by
        by_cases ha : a ≤ k
        · have hb : ¬ k < b := fun hkb => h1 ⟨ha, hkb⟩
          have hf : Nat.blt k b = false := by
            rw [← Bool.not_eq_true, Nat.blt_eq]; exact hb
          simp [hf]
        · have hf : Nat.ble a k = false := by
            rw [← Bool.not_eq_true, Nat.ble_eq]; exact ha
          simp [hf]
      simp only [hble, Bool.false_eq_true, if_false, ih]
      by_cases ha : a ≤ k
      · have hb : b ≤ k := by
          by_contra hbk
          exact h1 ⟨ha, Nat.lt_of_not_le hbk⟩
        have e1 : b - max a (k + 1) = 0 := by omega
        have e2 : b - max a k = 0 := by omega
        rw [e1, e2, List.take_zero, List.take_zero]
      · have e1 : a - k = (a - (k + 1)) + 1 := by omega
        have e2 : max a k = max a (k + 1) := by omega
        rw [e1, List.drop_succ_cons, e2]

theorem selDrop {α : Type} (l : List α) : ∀ (k a : Nat),
    ((List.enumFrom k l).filter fun p => Nat.ble a p.1).map Prod.snd =
      l.drop (a - k) := by
  induction l with
  | nil => intro k a; simp
  | cons x xs ih =>
    intro k a
    rw [List.enumFrom_cons, List.filter_cons]
    by_cases ha : a ≤ k
    · have hble : Nat.ble a k = true := Nat.ble_eq.mpr ha
      have e1 : a - k = 0 := by omega
      have e2 : a - (k + 1) = 0 := by omega
      simp only [hble, if_true, List.map_cons, ih, e1, e2, List.drop_zero]
    · have hble : Nat.ble a k = false := by
        rw [← Bool.not_eq_true, Nat.ble_eq]; exact ha
      have e1 : a - k = (a - (k + 1)) + 1 := by omega
      simp only [hble, Bool.false_eq_true, if_false, ih, e1, List.drop_succ_cons]



theorem intercalate_concat {α : Type} [DecidableEq α] (sep last : List α) (front : List (List α)) :
    List.intercalate sep (front ++ [last]) =
      (if front = [] then [] else List.intercalate sep front ++ sep) ++ last := by
  induction front with
  | nil => simp [List.intercalate]
  | cons x f ih =>
    cases f with
    | nil => simp [List.intercalate]
    | cons y f2 =>
      have h1 : List.intercalate sep ((x :: y :: f2) ++ [last]) =
          x ++ sep ++ List.intercalate sep ((y :: f2) ++ [last]) := by
        simp [List.intercalate, List.flatten]
      have h2 : List.intercalate sep (x :: y :: f2) =
          x ++ sep ++ List.intercalate sep (y :: f2) := by
        simp [List.intercalate, List.flatten]
      rw [h1, ih, h2]
      simp [List.append_assoc]

theorem noCr_mem_splitOn : ∀ (s : List Char), '\r' ∉ s →
    ∀ p ∈ s.splitOn '\n', '\r' ∉ p := by
  intro s
  induction s with
  | nil =>
    intro _ p hp
    rw [List.splitOn_nil] at hp
    simp at hp
    simp [hp]
  | cons c rest ih =>
    intro hs p hp
    have hcr : c ≠ '\r' := fun h => hs (h ▸ List.mem_cons_self c rest)
    have hrest : '\r' ∉ rest := fun h => hs (List.mem_cons_of_mem c h)
    rw [List.splitOn, List.splitOnP_cons] at hp
    by_cases hc : c = '\n'
    · rw [if_pos (by simp [hc])] at hp
      rcases List.mem_cons.mp hp with rfl | hp2
      · simp
      · exact ih hrest p hp2
    · rw [if_neg (by simp [hc])] at hp
      rcases hsp : rest.splitOnP (· == '\n') with _ | ⟨h1, t⟩
      · exact absurd hsp (List.splitOnP_ne_nil _ rest)
      · rw [hsp] at hp
        simp only [List.modifyHead] at hp
        rcases List.mem_cons.mp hp with rfl | hp2
        · intro hmem
          rcases List.mem_cons.mp hmem with h | h
          · exact hcr h.symm
          · exact ih hrest h1 (by rw [List.splitOn, hsp]; exact List.mem_cons_self _ _) h
        · exact ih hrest p (by rw [List.splitOn, hsp]; exact List.mem_cons_of_mem _ hp2)



theorem two_le_splitOn_length : ∀ (s : List Char), '\n' ∈ s →
    2 ≤ (s.splitOn '\n').length := by
  intro s
  induction s with
  | nil => intro h; cases h
  | cons c rest ih =>
    intro h
    rw [List.splitOn, List.splitOnP_cons]
    by_cases hc : c = '\n'
    · rw [if_pos (by simp [hc])]
      have := List.splitOnP_ne_nil (fun x => x == '\n') rest
      have hlen : 1 ≤ (rest.splitOnP (· == '\n')).length :=
        List.length_pos.mpr this
      simpa using Nat.succ_le_succ hlen
    · rw [if_neg (by simp [hc])]
      have hmem : '\n' ∈ rest := by
        rcases List.mem_cons.mp h with h1 | h1
        · exact absurd h1.symm hc
        · exact h1
      have := ih hmem
      rw [List.splitOn] at this
      simpa [List.length_modifyHead] using this

theorem endNl_splitOn_last : ∀ (s : List Char), s.getLast? = some '\n' →
    (s.splitOn '\n').getLast? = some [] := by
  intro s
  induction s with
  | nil => intro h; cases h
  | cons c rest ih =>
    intro h
    cases rest with
    | nil =>
      have hc : c = '\n' := by simpa using h
      subst hc
      rfl
    | cons r rs =>
      have hlast : (r :: rs).getLast? = some '\n' := by
        rwa [List.getLast?_cons_cons] at h
      have ihr := ih hlast
      have hmem : '\n' ∈ r :: rs :=
        List.mem_of_getLast?_eq_some hlast
      rw [List.splitOn, List.splitOnP_cons]
      by_cases hc : c = '\n'
      · rw [if_pos (by simp [hc])]
        rcases hsp : (r :: rs).splitOnP (· == '\n') with _ | ⟨h1, t⟩
        · exact absurd hsp (List.splitOnP_ne_nil _ _)
        · rw [List.splitOn, hsp] at ihr
          rw [List.getLast?_cons_cons]
          exact ihr
      · rw [if_neg (by simp [hc])]
        have hlen := two_le_splitOn_length (r :: rs) hmem
        rw [List.splitOn] at hlen
        rcases hsp : (r :: rs).splitOnP (· == '\n') with _ | ⟨h1, t⟩
        · exact absurd hsp (List.splitOnP_ne_nil _ _)
        · rw [List.splitOn, hsp] at ihr
          rw [hsp] at hlen
          cases t with
          | nil => simp at hlen
          | cons h2 t2 =>
            simp only [List.modifyHead]
            rw [List.getLast?_cons_cons]
            rwa [List.getLast?_cons_cons] at ihr



theorem specSelect_eq (l : List (List Char)) (sb eb : RBound) :
    specSelect l sb eb =
      match eb with
      | .excluded e => (l.drop (startOf sb)).take (e - startOf sb)
      | .included e => (l.drop (startOf sb)).take (e + 1 - startOf sb)
      | .unbounded => l.drop (startOf sb) := by
  have hlow : ∀ i, lowOk sb i = Nat.ble (startOf sb) i := fun i => by
    cases sb with
    | included n => rfl
    | excluded n => rfl
    | unbounded => exact (Nat.ble_eq.mpr (Nat.zero_le i)).symm
  cases eb with
  | excluded e =>
    show ((l.enum.filter fun p => lowOk sb p.1 && highOk (.excluded e) p.1).map
      Prod.snd) = _
    have hf : (l.enum.filter fun p => lowOk sb p.1 && highOk (.excluded e) p.1) =
        (List.enumFrom 0 l).filter fun p => Nat.ble (startOf sb) p.1 && Nat.blt p.1 e := by
      apply List.filter_congr
      intro p _
      rw [show lowOk sb p.1 = Nat.ble (startOf sb) p.1 from hlow p.1]
      rfl
    rw [hf, selTake]
    simp [Nat.max_eq_left (Nat.zero_le _)]
  | included e =>
    show ((l.enum.filter fun p => lowOk sb p.1 && highOk (.included e) p.1).map
      Prod.snd) = _
    have hf : (l.enum.filter fun p => lowOk sb p.1 && highOk (.included e) p.1) =
        (List.enumFrom 0 l).filter fun p =>
          Nat.ble (startOf sb) p.1 && Nat.blt p.1 (e + 1) := by
      apply List.filter_congr
      intro p _
      rw [show lowOk sb p.1 = Nat.ble (startOf sb) p.1 from hlow p.1]
      rfl
    rw [hf, selTake]
    simp [Nat.max_eq_left (Nat.zero_le _)]
  | unbounded =>
    show ((l.enum.filter fun p => lowOk sb p.1 && highOk .unbounded p.1).map
      Prod.snd) = _
    have hf : (l.enum.filter fun p => lowOk sb p.1 && highOk .unbounded p.1) =
        (List.enumFrom 0 l).filter fun p => Nat.ble (startOf sb) p.1 := by
      apply List.filter_congr
      intro p _
      rw [show lowOk sb p.1 = Nat.ble (startOf sb) p.1 from hlow p.1]
      exact Bool.and_true _
    rw [hf, selDrop]
    show List.drop (startOf sb - 0) l = List.drop (startOf sb) l
    rw [Nat.sub_zero]

theorem c7_take_lines_roundtrip :
    (∀ (s : List Char) (sb eb : RBound),
        takeLines s sb eb =
          List.intercalate ['\n'] (specSelect (rustLines s) sb eb)) ∧
      ∀ s : List Char, '\r' ∉ s →
        takeLines s .unbounded .unbounded ++
            (if s.getLast? = some '\n' then ['\n'] else []) = s := by
  constructor
  · intro s sb eb
    rw [specSelect_eq]
    cases eb <;> cases sb <;> rfl
  · intro s hcr
    have hne : s.splitOn '\n' ≠ [] := List.splitOnP_ne_nil _ s
    have hid : (s.splitOn '\n').dropLast.map stripCr = (s.splitOn '\n').dropLast := by
      have h1 : ∀ p ∈ (s.splitOn '\n').dropLast, stripCr p = p := by
        intro p hp
        have hmem : p ∈ s.splitOn '\n' := List.dropLast_subset _ hp
        have hnr := noCr_mem_splitOn s hcr p hmem
        unfold stripCr
        rw [if_neg]
        intro hlast
        exact hnr (List.mem_of_getLast?_eq_some hlast)
      rw [List.map_congr_left h1, List.map_id']
    have hrl : rustLines s =
        (s.splitOn '\n').dropLast ++
          (if (s.splitOn '\n').getLast hne = [] then []
           else [(s.splitOn '\n').getLast hne]) := by
      simp only [rustLines, hid, List.getLast?_eq_getLast _ hne]
    have hs : List.intercalate ['\n'] (s.splitOn '\n') = s :=
      List.intercalate_splitOn s '\n'
    have htl : takeLines s .unbounded .unbounded =
        List.intercalate ['\n'] (rustLines s) := rfl
    by_cases hl : (s.splitOn '\n').getLast hne = []
    · rw [if_pos hl, List.append_nil] at hrl
      have hsplit : (s.splitOn '\n').dropLast ++ [[]] = s.splitOn '\n' := by
        conv_rhs => rw [← List.dropLast_append_getLast hne, hl]
      by_cases hfront : (s.splitOn '\n').dropLast = []
      · have hse : s = [] := by
          rw [← hs, ← hsplit, hfront]
          rfl
        subst hse
        simp [htl, hrl, hfront, List.intercalate]
      · have hs2 : s = List.intercalate ['\n'] (s.splitOn '\n').dropLast ++ ['\n'] := by
          have e1 := intercalate_concat ['\n'] ([] : List Char) (s.splitOn '\n').dropLast
          rw [if_neg hfront, List.append_nil] at e1
          calc s = List.intercalate ['\n'] (s.splitOn '\n') := hs.symm
            _ = List.intercalate ['\n'] ((s.splitOn '\n').dropLast ++ [[]]) := by
                rw [hsplit]
            _ = _ := e1
        have hend : s.getLast? = some '\n' := by
          rw [hs2]
          exact List.getLast?_concat _
        rw [htl, hrl, if_pos hend]
        exact hs2.symm
    · rw [if_neg hl] at hrl
      rw [List.dropLast_append_getLast hne] at hrl
      have hend : ¬ s.getLast? = some '\n' := by
        intro h
        have := endNl_splitOn_last s h
        rw [List.getLast?_eq_getLast _ hne] at this
        exact hl (Option.some.inj this)
      rw [htl, hrl, if_neg hend, List.append_nil, hs]

/-- C7 (witness): lines 1–2 of `"a\nb\nc"`, and the full-range round trip of
`"a\nb\n"`. -/
theorem c7_take_lines_roundtrip_witness :
    takeLines ("a\nb\nc").data (.included 1) (.excluded 3) =
        List.intercalate ['\n']
          (specSelect (rustLines ("a\nb\nc").data) (.included 1) (.excluded 3)) ∧
      '\r' ∉ ("a\nb\n").data ∧
      takeLines ("a\nb\n").data .unbounded .unbounded ++
          (if ("a\nb\n").data.getLast? = some '\n' then ['\n'] else []) =
        ("a\nb\n").data :=
  ⟨c7_take_lines_roundtrip.1 ("a\nb\nc").data (.included 1) (.excluded 3),
   by decide,
   c7_take_lines_roundtrip.2 ("a\nb\n").data (by decide)⟩

/-- After `next_event` hands out an event, the pushback slot is empty. -/
theorem nextEvent_back_none {st st' : PState} {ev : MEvent}
    (h : nextEvent st = (some ev, st')) : st'.back = none := by
  unfold nextEvent at h
  cases hb : st.back with
  | some e => rw [hb] at h; cases h; rfl
  | none =>
    rw [hb] at h
    cases hs : st.stream with
    | nil => rw [hs] at h; cases h
    | cons p rest => rw [hs] at h; cases h; rfl

/-- `back` succeeds on a state with an empty pushback slot. -/
theorem pushBack_of_back_none {st : PState} (h : st.back = none) (ev : MEvent) :
    pushBack ev st = some ⟨st.src, st.stream, st.offset, some ev⟩ := by
  unfold pushBack
  rw [h]

/-- `parse_nested_item` never panics, and on success returns a link with no
nested items whose number is `parent ++ [num_existing + 1]`. -/
theorem parseNestedItem_spec : ∀ (fuel : Nat) (parent : List Nat) (k : Nat)
    (st : PState),
    parseNestedItem fuel parent k st ≠ .panic ∧
      ∀ it st', parseNestedItem fuel parent k st = .ok it st' →
        ∃ name loc, it = SItem.link name loc (some (parent ++ [k + 1])) [] := by
  intro fuel
  induction fuel with
  | zero =>
    intro parent k st
    constructor
    · intro h; cases h
    · intro it st' h; cases h
  | succ fuel ih =>
    intro parent k st
    rw [parseNestedItem]
    rcases hn : nextEvent st with ⟨oev, st2⟩
    cases oev with
    | none =>
      constructor
      · intro h; cases h
      · intro it st' h; cases h
    | some ev =>
      cases ev with
      | start t =>
        cases t with
        | paragraph => exact ih parent k st2
        | link ty href title =>
          constructor
          · intro h; cases h
          · intro it st' h
            cases h
            exact ⟨_, _, rfl⟩
        | heading lvl =>
          constructor
          · intro h; cases h
          · intro it st' h; cases h
        | list f =>
          constructor
          · intro h; cases h
          · intro it st' h; cases h
        | item =>
          constructor
          · intro h; cases h
          · intro it st' h; cases h
        | image a b c =>
          constructor
          · intro h; cases h
          · intro it st' h; cases h
        | codeBlock kk =>
          constructor
          · intro h; cases h
          · intro it st' h; cases h
        | other i =>
          constructor
          · intro h; cases h
          · intro it st' h; cases h
      | stop t =>
        constructor
        · intro h; cases h
        · intro it st' h; cases h
      | text s =>
        constructor
        · intro h; cases h
        · intro it st' h; cases h
      | code s =>
        constructor
        · intro h; cases h
        · intro it st' h; cases h
      | html s =>
        constructor
        · intro h; cases h
        · intro it st' h; cases h
      | softBreak =>
        constructor
        · intro h; cases h
        · intro it st' h; cases h
      | hardBreak =>
        constructor
        · intro h; cases h
        · intro it st' h; cases h
      | rule =>
        constructor
        · intro h; cases h
        · intro it st' h; cases h
      | taskListMarker b =>
        constructor
        · intro h; cases h
        · intro it st' h; cases h
      | footnoteReference s =>
        constructor
        · intro h; cases h
        · intro it st' h; cases h



/-- `linkCount` of a list of links is its length. -/
theorem linkCount_eq_length {items : List SItem} (h : AllLinks items) :
    linkCount items = items.length := by
  unfold linkCount
  induction items with
  | nil => rfl
  | cons x rest ih =>
    rw [List.countP_cons, ih (fun it hit => h it (List.mem_cons_of_mem x hit))]
    rw [h x (List.mem_cons_self x rest)]
    simp [List.length_cons]

/-- Numbering sequences concatenate: a block numbered from `n` followed by a
block numbered from `n` plus the first block's link count. -/
theorem GoodSeq.append {parent : List Nat} {n : Nat} {xs ys : List SItem}
    (hxs : GoodSeq parent n xs)
    (hys : GoodSeq parent (n + linkCount xs) ys) :
    GoodSeq parent n (xs ++ ys) := by
  induction hxs with
  | nil p m =>
    simpa [linkCount] using hys
  | sep p m rest hrest ih =>
    rw [List.cons_append]
    refine GoodSeq.sep p m _ (ih ?_)
    have : linkCount (SItem.separator :: rest) = linkCount rest := by
      simp [linkCount, List.countP_cons, SItem.isLink]
    rwa [this] at hys
  | part p m t rest hrest ih =>
    rw [List.cons_append]
    refine GoodSeq.part p m t _ (ih ?_)
    have : linkCount (SItem.partTitle t :: rest) = linkCount rest := by
      simp [linkCount, List.countP_cons, SItem.isLink]
    rwa [this] at hys
  | link p m name loc nested rest hnested hrest ihn ihr =>
    rw [List.cons_append]
    refine GoodSeq.link p m name loc nested _ hnested (ihr ?_)
    have : linkCount (SItem.link name loc (some (p ++ [m + 1])) nested :: rest) =
        linkCount rest + 1 := by
      simp [linkCount, List.countP_cons, SItem.isLink]
    rw [this] at hys
    have e : m + (linkCount rest + 1) = m + 1 + linkCount rest := by omega
    rwa [e] at hys

/-- `get_last_link` on a list ending in a link finds exactly that link. -/
theorem splitAtLastLink_concat (ys : List SItem) (nm : String)
    (lc : Option String) (num : Option (List Nat)) (nst : List SItem) :
    splitAtLastLink (ys ++ [SItem.link nm lc num nst]) =
      some (ys, ⟨nm, lc, num, nst⟩, []) := by
  induction ys with
  | nil => rfl
  | cons y rest ih =>
    simp [List.cons_append, splitAtLastLink, ih]

/-- In a good sequence of links ending in a link, that link's number is
`parent ++ [n + length]` and its nested items are good below it. -/
theorem GoodSeq.last_link {parent : List Nat} {n : Nat} {ys : List SItem}
    {nm : String} {lc : Option String} {num : Option (List Nat)}
    {nst : List SItem}
    (hall : AllLinks (ys ++ [SItem.link nm lc num nst]))
    (h : GoodSeq parent n (ys ++ [SItem.link nm lc num nst])) :
    num = some (parent ++ [n + ys.length + 1]) ∧
      GoodSeq (parent ++ [n + ys.length + 1]) 0 nst := by
  induction ys generalizing n with
  | nil =>
    rw [List.nil_append] at h
    cases h with
    | link _ _ _ _ _ _ hnested hrest =>
      exact ⟨rfl, by simpa using hnested⟩
  | cons y rest ih =>
    rw [List.cons_append] at h
    cases h with
    | sep _ _ _ hrest =>
      have := hall SItem.separator (List.mem_cons_self _ _)
      simp [SItem.isLink] at this
    | part _ _ t _ hrest =>
      have := hall (SItem.partTitle t) (List.mem_cons_self _ _)
      simp [SItem.isLink] at this
    | link _ _ name loc nested _ hnested hrest =>
      have hall2 : AllLinks (rest ++ [SItem.link nm lc num nst]) :=
        fun it hit => hall it (List.mem_cons_of_mem _ hit)
      have := ih hall2 hrest
      have e : n + 1 + rest.length + 1 = n + (rest.length + 1) + 1 := by omega
      rw [e] at this
      simpa [List.length_cons] using this

/-- Replacing the nested items of the final link of a good sequence with a
forest that is good below that link's number preserves the invariant. -/
theorem GoodSeq.set_last_nested {parent : List Nat} {n : Nat} {ys : List SItem}
    {nm : String} {lc : Option String} {num : Option (List Nat)}
    {nst sub : List SItem}
    (hall : AllLinks (ys ++ [SItem.link nm lc num nst]))
    (h : GoodSeq parent n (ys ++ [SItem.link nm lc num nst]))
    (hsub : GoodSeq (parent ++ [n + ys.length + 1]) 0 sub) :
    GoodSeq parent n (ys ++ [SItem.link nm lc num sub]) := by
  induction ys generalizing n with
  | nil =>
    rw [List.nil_append] at h ⊢
    cases h with
    | link _ _ _ _ _ _ hnested hrest =>
      exact GoodSeq.link _ _ _ _ _ _ (by simpa using hsub) hrest
  | cons y rest ih =>
    rw [List.cons_append] at h ⊢
    cases h with
    | sep _ _ _ hrest =>
      have := hall SItem.separator (List.mem_cons_self _ _)
      simp [SItem.isLink] at this
    | part _ _ t _ hrest =>
      have := hall (SItem.partTitle t) (List.mem_cons_self _ _)
      simp [SItem.isLink] at this
    | link _ _ name loc nested _ hnested hrest =>
      have hall2 : AllLinks (rest ++ [SItem.link nm lc num nst]) :=
        fun it hit => hall it (List.mem_cons_of_mem _ hit)
      refine GoodSeq.link _ _ _ _ _ _ hnested (ih hall2 hrest ?_)
      have e : n + 1 + rest.length + 1 = n + (rest.length + 1) + 1 := by omega
      rw [e]
      simpa [List.length_cons] using hsub



/-- Adding at level 0 of a nonempty number bumps its head. -/
theorem updNum_cons (add p : Nat) (l : List Nat) :
    updNum 0 add (p :: l) = some ((p + add) :: l) := by
  simp [updNum]

/-- Unfolding `updateSectionNumbers` at a separator. -/
theorem update_sep (fuel level add : Nat) (rest : List SItem) :
    updateSectionNumbers (fuel + 1) level add (SItem.separator :: rest) =
      match updateSectionNumbers fuel level add rest with
      | .ok rest2 => .ok (SItem.separator :: rest2)
      | r => r := rfl

/-- Unfolding `updateSectionNumbers` at a part title. -/
theorem update_part (fuel level add : Nat) (t : String) (rest : List SItem) :
    updateSectionNumbers (fuel + 1) level add (SItem.partTitle t :: rest) =
      match updateSectionNumbers fuel level add rest with
      | .ok rest2 => .ok (SItem.partTitle t :: rest2)
      | r => r := rfl

/-- Unfolding `updateSectionNumbers` at a numbered link. -/
theorem update_link (fuel level add : Nat) (nm : String) (lc : Option String)
    (v : List Nat) (nst rest : List SItem) :
    updateSectionNumbers (fuel + 1) level add
        (SItem.link nm lc (some v) nst :: rest) =
      match (updNum level add v).map some,
          updateSectionNumbers fuel level add nst,
          updateSectionNumbers fuel level add rest with
      | some n2, .ok nst2, .ok rest2 => .ok (SItem.link nm lc n2 nst2 :: rest2)
      | none, _, _ => .panic
      | _, .panic, _ => .panic
      | _, _, .panic => .panic
      | _, _, _ => .fuelOut := rfl

/-- `update_section_numbers` at level 0 over a forest that is good below a
nonempty parent: it cannot panic, and on success it re-roots the whole
forest under the parent with its head increased by `add`, preserving
length and linkness. -/
theorem update_good_cons : ∀ {parent : List Nat} {n : Nat} {xs : List SItem},
    GoodSeq parent n xs → ∀ (p : Nat) (t : List Nat), parent = p :: t →
    ∀ (fuel add : Nat), updateSectionNumbers fuel 0 add xs ≠ .panic ∧
      ∀ xs', updateSectionNumbers fuel 0 add xs = .ok xs' →
        GoodSeq ((p + add) :: t) n xs' ∧ xs'.length = xs.length ∧
          (AllLinks xs → AllLinks xs') := by
  intro parent n xs h
  induction h with
  | nil q m =>
    intro p t hpt fuel add
    cases fuel with
    | zero => exact ⟨(fun h2 => by cases h2), (fun xs' h2 => by cases h2)⟩
    | succ fuel =>
      refine ⟨(fun h2 => by cases h2), (fun xs' h2 => ?_)⟩
      cases h2
      exact ⟨GoodSeq.nil _ _, rfl, fun _ => fun it hit => by cases hit⟩
  | sep q m rest hrest ih =>
    intro p t hpt fuel add
    cases fuel with
    | zero => exact ⟨(fun h2 => by cases h2), (fun xs' h2 => by cases h2)⟩
    | succ fuel =>
      have hr := ih p t hpt fuel add
      rw [update_sep]
      rcases hu : updateSectionNumbers fuel 0 add rest with rest2 | _ | _
      · refine ⟨(fun h2 => by cases h2), (fun xs' h2 => ?_)⟩
        cases h2
        obtain ⟨hg, hl, _⟩ := hr.2 rest2 hu
        refine ⟨GoodSeq.sep _ _ _ hg, by simp [hl], fun hall => ?_⟩
        have hfalse := hall SItem.separator (List.mem_cons_self _ _)
        simp [SItem.isLink] at hfalse
      · exact absurd hu hr.1
      · exact ⟨(fun h2 => by cases h2), (fun xs' h2 => by cases h2)⟩
  | part q m t0 rest hrest ih =>
    intro p t hpt fuel add
    cases fuel with
    | zero => exact ⟨(fun h2 => by cases h2), (fun xs' h2 => by cases h2)⟩
    | succ fuel =>
      have hr := ih p t hpt fuel add
      rw [update_part]
      rcases hu : updateSectionNumbers fuel 0 add rest with rest2 | _ | _
      · refine ⟨(fun h2 => by cases h2), (fun xs' h2 => ?_)⟩
        cases h2
        obtain ⟨hg, hl, _⟩ := hr.2 rest2 hu
        refine ⟨GoodSeq.part _ _ _ _ hg, by simp [hl], fun hall => ?_⟩
        have hfalse := hall (SItem.partTitle t0) (List.mem_cons_self _ _)
        simp [SItem.isLink] at hfalse
      · exact absurd hu hr.1
      · exact ⟨(fun h2 => by cases h2), (fun xs' h2 => by cases h2)⟩
  | link q m name loc nested rest hnested hrest ihn ihr =>
    intro p t hpt fuel add
    subst hpt
    cases fuel with
    | zero => exact ⟨(fun h2 => by cases h2), (fun xs' h2 => by cases h2)⟩
    | succ fuel =>
      have hn2 := ihn p (t ++ [m + 1]) (List.cons_append _ _ _) fuel add
      have hr2 := ihr p t rfl fuel add
      have hv : (p :: t) ++ [m + 1] = p :: (t ++ [m + 1]) := List.cons_append _ _ _
      rw [hv, update_link, updNum_cons]
      rcases hun : updateSectionNumbers fuel 0 add nested with nst2 | _ | _
      · rcases hur : updateSectionNumbers fuel 0 add rest with rest2 | _ | _
        · refine ⟨(fun h2 => by cases h2), (fun xs' h2 => ?_)⟩
          cases h2
          obtain ⟨hgn, hln, han⟩ := hn2.2 nst2 hun
          obtain ⟨hgr, hlr, har⟩ := hr2.2 rest2 hur
          refine ⟨?_, by simp [hlr], fun hall => ?_⟩
          · have e : (p + add) :: (t ++ [m + 1]) = ((p + add) :: t) ++ [m + 1] :=
              (List.cons_append _ _ _).symm
            rw [e] at hgn
            exact GoodSeq.link _ _ _ _ _ _ hgn hgr
          · intro it hit
            rcases List.mem_cons.mp hit with rfl | hit2
            · rfl
            · exact har (fun j hj => hall j (List.mem_cons_of_mem _ hj)) it hit2
        · exact absurd hur hr2.1
        · exact ⟨(fun h2 => by cases h2), (fun xs' h2 => by cases h2)⟩
      · exact absurd hun hn2.1
      · rcases hur : updateSectionNumbers fuel 0 add rest with rest2 | _ | _
        · exact ⟨(fun h2 => by cases h2), (fun xs' h2 => by cases h2)⟩
        · exact absurd hur hr2.1
        · exact ⟨(fun h2 => by cases h2), (fun xs' h2 => by cases h2)⟩


/-- `update_section_numbers` at level 0 over a root-level forest (empty
parent): it cannot panic, and on success it shifts the root numbering by
`add`, preserving length and linkness. -/
theorem update_good_nil : ∀ {parent : List Nat} {n : Nat} {xs : List SItem},
    GoodSeq parent n xs → parent = [] →
    ∀ (fuel add : Nat), updateSectionNumbers fuel 0 add xs ≠ .panic ∧
      ∀ xs', updateSectionNumbers fuel 0 add xs = .ok xs' →
        GoodSeq [] (n + add) xs' ∧ xs'.length = xs.length ∧
          (AllLinks xs → AllLinks xs') := by
  intro parent n xs h
  induction h with
  | nil q m =>
    intro hq fuel add
    cases fuel with
    | zero => exact ⟨(fun h2 => by cases h2), (fun xs' h2 => by cases h2)⟩
    | succ fuel =>
      refine ⟨(fun h2 => by cases h2), (fun xs' h2 => ?_)⟩
      cases h2
      exact ⟨GoodSeq.nil _ _, rfl, fun _ => fun it hit => by cases hit⟩
  | sep q m rest hrest ih =>
    intro hq fuel add
    cases fuel with
    | zero => exact ⟨(fun h2 => by cases h2), (fun xs' h2 => by cases h2)⟩
    | succ fuel =>
      have hr := ih hq fuel add
      rw [update_sep]
      rcases hu : updateSectionNumbers fuel 0 add rest with rest2 | _ | _
      · refine ⟨(fun h2 => by cases h2), (fun xs' h2 => ?_)⟩
        cases h2
        obtain ⟨hg, hl, _⟩ := hr.2 rest2 hu
        refine ⟨GoodSeq.sep _ _ _ hg, by simp [hl], fun hall => ?_⟩
        have hfalse := hall SItem.separator (List.mem_cons_self _ _)
        simp [SItem.isLink] at hfalse
      · exact absurd hu hr.1
      · exact ⟨(fun h2 => by cases h2), (fun xs' h2 => by cases h2)⟩
  | part q m t0 rest hrest ih =>
    intro hq fuel add
    cases fuel with
    | zero => exact ⟨(fun h2 => by cases h2), (fun xs' h2 => by cases h2)⟩
    | succ fuel =>
      have hr := ih hq fuel add
      rw [update_part]
      rcases hu : updateSectionNumbers fuel 0 add rest with rest2 | _ | _
      · refine ⟨(fun h2 => by cases h2), (fun xs' h2 => ?_)⟩
        cases h2
        obtain ⟨hg, hl, _⟩ := hr.2 rest2 hu
        refine ⟨GoodSeq.part _ _ _ _ hg, by simp [hl], fun hall => ?_⟩
        have hfalse := hall (SItem.partTitle t0) (List.mem_cons_self _ _)
        simp [SItem.isLink] at hfalse
      · exact absurd hu hr.1
      · exact ⟨(fun h2 => by cases h2), (fun xs' h2 => by cases h2)⟩
  | link q m name loc nested rest hnested hrest ihn ihr =>
    intro hq fuel add
    subst hq
    cases fuel with
    | zero => exact ⟨(fun h2 => by cases h2), (fun xs' h2 => by cases h2)⟩
    | succ fuel =>
      have hn2 := update_good_cons hnested (m + 1) []
        (by rw [List.nil_append]) fuel add
      have hr2 := ihr rfl fuel add
      have hv : ([] : List Nat) ++ [m + 1] = [m + 1] := List.nil_append _
      rw [hv, update_link, updNum_cons]
      rcases hun : updateSectionNumbers fuel 0 add nested with nst2 | _ | _
      · rcases hur : updateSectionNumbers fuel 0 add rest with rest2 | _ | _
        · refine ⟨(fun h2 => by cases h2), (fun xs' h2 => ?_)⟩
          cases h2
          obtain ⟨hgn, hln, han⟩ := hn2.2 nst2 hun
          obtain ⟨hgr, hlr, har⟩ := hr2.2 rest2 hur
          refine ⟨?_, by simp [hlr], fun hall => ?_⟩
          · have e2 : m + 1 + add = m + add + 1 := by omega
            rw [e2] at hgn hgr
            rw [e2]
            have e3 : (m + add + 1) :: ([] : List Nat) =
                ([] : List Nat) ++ [m + add + 1] := rfl
            rw [e3] at hgn
            exact GoodSeq.link [] (m + add) name loc nst2 rest2 hgn hgr
          · intro it hit
            rcases List.mem_cons.mp hit with rfl | hit2
            · rfl
            · exact har (fun j hj => hall j (List.mem_cons_of_mem _ hj)) it hit2
        · exact absurd hur hr2.1
        · exact ⟨(fun h2 => by cases h2), (fun xs' h2 => by cases h2)⟩
      · exact absurd hun hn2.1
      · rcases hur : updateSectionNumbers fuel 0 add rest with rest2 | _ | _
        · exact ⟨(fun h2 => by cases h2), (fun xs' h2 => by cases h2)⟩
        · exact absurd hur hr2.1
        · exact ⟨(fun h2 => by cases h2), (fun xs' h2 => by cases h2)⟩


/-- `parse_nested_numbered` never panics and, given a good all-links
accumulator, returns a good all-links item list. -/
theorem parseNestedNumbered_spec : ∀ (fuel : Nat) (parent : List Nat)
    (st : PState) (items : List SItem),
    AllLinks items → GoodSeq parent 0 items →
    parseNestedNumbered fuel parent st items ≠ .panic ∧
      ∀ res st', parseNestedNumbered fuel parent st items = .ok res st' →
        AllLinks res ∧ GoodSeq parent 0 res := by
  intro fuel
  induction fuel with
  | zero =>
    intro parent st items h1 h2
    exact ⟨(fun h => by cases h), (fun res st' h => by cases h)⟩
  | succ fuel ih =>
    intro parent st items h1 h2
    rw [parseNestedNumbered]
    rcases hn : nextEvent st with ⟨oev, st2⟩
    simp only []
    cases oev with
    | none =>
      exact ⟨(fun h => by cases h), (fun res st' h => by (cases h; exact ⟨h1, h2⟩))⟩
    | some ev =>
      cases ev with
      | start t =>
        cases t with
        | item =>
          simp only []
          rcases hi : parseNestedItem fuel parent items.length st2 with ⟨it, st3⟩ | e | _ | _
          · obtain ⟨nm, lc, hit⟩ :=
              (parseNestedItem_spec fuel parent items.length st2).2 it st3 hi
            subst hit
            apply ih parent st3 _ ?_ ?_
            · intro it2 hit2
              rcases List.mem_append.mp hit2 with hm | hm
              · exact h1 it2 hm
              · rcases List.mem_singleton.mp hm with rfl
                rfl
            · refine GoodSeq.append h2 ?_
              rw [linkCount_eq_length h1, Nat.zero_add]
              exact GoodSeq.link parent items.length nm lc [] []
                (GoodSeq.nil _ _) (GoodSeq.nil _ _)
          · exact ⟨(fun h => by cases h), (fun res st' h => by cases h)⟩
          · exact absurd hi (parseNestedItem_spec fuel parent items.length st2).1
          · exact ⟨(fun h => by cases h), (fun res st' h => by cases h)⟩
        | list f =>
          cases items with
          | nil => exact ih parent st2 [] h1 h2
          | cons i0 irest =>
            simp only [List.isEmpty_cons, Bool.false_eq_true, if_false]
            have hne : i0 :: irest ≠ [] := List.cons_ne_nil _ _
            have hdec : (i0 :: irest).dropLast ++ [(i0 :: irest).getLast hne] =
                i0 :: irest := List.dropLast_append_getLast hne
            have hglmem : (i0 :: irest).getLast hne ∈ i0 :: irest :=
              List.getLast_mem hne
            rcases hgl : (i0 :: irest).getLast hne with ⟨nm, lc, num, nst⟩ | _ | t0
            · rw [hgl] at hdec
              rw [← hdec] at h1 h2 ⊢
              have hlast := GoodSeq.last_link h1 h2
              rw [Nat.zero_add] at hlast
              obtain ⟨hnum, hnst⟩ := hlast
              subst hnum
              rw [splitAtLastLink_concat]
              simp only []
              rcases hs : parseNestedNumbered fuel
                  (parent ++ [(i0 :: irest).dropLast.length + 1]) st2 [] with
                  ⟨sub, st3⟩ | e | _ | _
              · have hsub := (ih _ st2 [] (fun it hit => by cases hit)
                  (GoodSeq.nil _ _)).2 sub st3 hs
                apply ih parent st3 _ ?_ ?_
                · intro it2 hit2
                  rw [List.append_nil] at hit2
                  rcases List.mem_append.mp hit2 with hm | hm
                  · exact h1 it2 (List.mem_append.mpr (Or.inl hm))
                  · rcases List.mem_singleton.mp hm with rfl
                    rfl
                · rw [List.append_nil]
                  refine GoodSeq.set_last_nested h1 h2 ?_
                  rw [Nat.zero_add]
                  exact hsub.2
              · exact ⟨(fun h => by cases h), (fun res st' h => by cases h)⟩
              · exact absurd hs (ih _ st2 [] (fun it hit => by cases hit)
                  (GoodSeq.nil _ _)).1
              · exact ⟨(fun h => by cases h), (fun res st' h => by cases h)⟩
            · have hfalse := h1 _ hglmem
              rw [hgl] at hfalse
              simp [SItem.isLink] at hfalse
            · have hfalse := h1 _ hglmem
              rw [hgl] at hfalse
              simp [SItem.isLink] at hfalse
        | paragraph => exact ih parent st2 items h1 h2
        | heading lvl => exact ih parent st2 items h1 h2
        | link a b c => exact ih parent st2 items h1 h2
        | image a b c => exact ih parent st2 items h1 h2
        | codeBlock kk => exact ih parent st2 items h1 h2
        | other i => exact ih parent st2 items h1 h2
      | stop t =>
        cases t with
        | list f =>
          exact ⟨(fun h => by cases h),
            (fun res st' h => by (cases h; exact ⟨h1, h2⟩))⟩
        | paragraph => exact ih parent st2 items h1 h2
        | heading lvl => exact ih parent st2 items h1 h2
        | link a b c => exact ih parent st2 items h1 h2
        | image a b c => exact ih parent st2 items h1 h2
        | codeBlock kk => exact ih parent st2 items h1 h2
        | other i => exact ih parent st2 items h1 h2
        | item => exact ih parent st2 items h1 h2
      | text s => exact ih parent st2 items h1 h2
      | code s => exact ih parent st2 items h1 h2
      | html s => exact ih parent st2 items h1 h2
      | softBreak => exact ih parent st2 items h1 h2
      | hardBreak => exact ih parent st2 items h1 h2
      | rule => exact ih parent st2 items h1 h2
      | taskListMarker b => exact ih parent st2 items h1 h2
      | footnoteReference s => exact ih parent st2 items h1 h2


/-- `linkCount` distributes over append. -/
theorem linkCount_append (a b : List SItem) :
    linkCount (a ++ b) = linkCount a + linkCount b :=
  List.countP_append _ _ _

/-- A good accumulator extended by a separator stays good. -/
theorem GoodSeq.push_sep {n0 : Nat} {items : List SItem}
    (h : GoodSeq [] n0 items) : GoodSeq [] n0 (items ++ [SItem.separator]) :=
  GoodSeq.append h (GoodSeq.sep _ _ _ (GoodSeq.nil _ _))

/-- `parse_numbered` with the root section number: it never panics and, given
a good accumulator counted by `rootItems`, returns a good item list with the
root item counter advanced by its link count. -/
theorem parseNumbered_spec : ∀ (fuel : Nat) (st : PState) (first : Bool)
    (rootItems n0 : Nat) (items : List SItem),
    GoodSeq [] n0 items → rootItems = n0 + linkCount items →
    parseNumbered fuel [] rootItems st first items ≠ .panic ∧
      ∀ res ri2 st',
        parseNumbered fuel [] rootItems st first items = .ok (res, ri2) st' →
        GoodSeq [] n0 res ∧ ri2 = n0 + linkCount res := by
  intro fuel
  induction fuel with
  | zero =>
    intro st first rootItems n0 items h1 h2
    exact ⟨(fun h => by cases h), (fun res ri2 st' h => by cases h)⟩
  | succ fuel ih =>
    intro st first rootItems n0 items h1 h2
    rw [parseNumbered]
    rcases hn : nextEvent st with ⟨oev, st2⟩
    simp only []
    have hok : ∀ st3 : PState,
        parseNumbered (fuel + 1) [] rootItems st first items =
          PRes.ok (items, rootItems) st3 →
        True := fun _ _ => trivial
    clear hok
    cases oev with
    | none =>
      exact ⟨(fun h => by cases h),
        (fun res ri2 st' h => by (cases h; exact ⟨h1, h2⟩))⟩
    | some ev =>
      have hb : st2.back = none := nextEvent_back_none hn
      cases ev with
      | start t =>
        cases t with
        | paragraph =>
          cases first with
          | true =>
            simp only [if_true]
            exact ih st2 false rootItems n0 items h1 h2
          | false =>
            simp only [Bool.false_eq_true, if_false,
              pushBack_of_back_none hb]
            exact ⟨(fun h => by cases h),
              (fun res ri2 st' h => by (cases h; exact ⟨h1, h2⟩))⟩
        | heading lvl =>
          cases lvl with
          | zero =>
            simp only []
            rcases hsk : skipUntilEnd fuel (MTag.heading 0) st2 with _ | st3
            · exact ⟨(fun h => by cases h), (fun res ri2 st' h => by cases h)⟩
            · exact ih st3 false rootItems n0 items h1 h2
          | succ l2 =>
            cases l2 with
            | zero =>
              simp only [pushBack_of_back_none hb]
              exact ⟨(fun h => by cases h),
                (fun res ri2 st' h => by (cases h; exact ⟨h1, h2⟩))⟩
            | succ l3 =>
              simp only []
              rcases hsk : skipUntilEnd fuel (MTag.heading (l3 + 2)) st2 with _ | st3
              · exact ⟨(fun h => by cases h), (fun res ri2 st' h => by cases h)⟩
              · exact ih st3 false rootItems n0 items h1 h2
        | list k =>
          simp only [pushBack_of_back_none hb]
          rcases hs : parseNestedNumbered fuel []
              ⟨st2.src, st2.stream, st2.offset, some (MEvent.start (MTag.list k))⟩
              [] with ⟨bunch, st3⟩ | e | _ | _
          · simp only []
            have hbun := (parseNestedNumbered_spec fuel [] _ []
              (fun it hit => by cases hit) (GoodSeq.nil _ _)).2 bunch st3 hs
            rcases hu : updateSectionNumbers fuel 0 rootItems bunch with bunch2 | _ | _
            · simp only []
              obtain ⟨hg2, hlen2, hall2⟩ :=
                (update_good_nil hbun.2 rfl fuel rootItems).2 bunch2 hu
              rw [Nat.zero_add] at hg2
              have hall2b := hall2 hbun.1
              apply ih st3 false (rootItems + bunch2.length) n0 (items ++ bunch2)
                ?_ ?_
              · refine GoodSeq.append h1 ?_
                rw [← h2]
                exact hg2
              · rw [linkCount_append, h2, linkCount_eq_length hall2b]
                omega
            · exact absurd hu (update_good_nil hbun.2 rfl fuel rootItems).1
            · exact ⟨(fun h => by cases h), (fun res ri2 st' h => by cases h)⟩
          · exact ⟨(fun h => by cases h), (fun res ri2 st' h => by cases h)⟩
          · exact absurd hs (parseNestedNumbered_spec fuel [] _ []
              (fun it hit => by cases hit) (GoodSeq.nil _ _)).1
          · exact ⟨(fun h => by cases h), (fun res ri2 st' h => by cases h)⟩
        | item =>
          simp only []
          rcases hsk : skipUntilEnd fuel MTag.item st2 with _ | st3
          · exact ⟨(fun h => by cases h), (fun res ri2 st' h => by cases h)⟩
          · exact ih st3 false rootItems n0 items h1 h2
        | link a b c =>
          simp only []
          rcases hsk : skipUntilEnd fuel (MTag.link a b c) st2 with _ | st3
          · exact ⟨(fun h => by cases h), (fun res ri2 st' h => by cases h)⟩
          · exact ih st3 false rootItems n0 items h1 h2
        | image a b c =>
          simp only []
          rcases hsk : skipUntilEnd fuel (MTag.image a b c) st2 with _ | st3
          · exact ⟨(fun h => by cases h), (fun res ri2 st' h => by cases h)⟩
          · exact ih st3 false rootItems n0 items h1 h2
        | codeBlock kk =>
          simp only []
          rcases hsk : skipUntilEnd fuel (MTag.codeBlock kk) st2 with _ | st3
          · exact ⟨(fun h => by cases h), (fun res ri2 st' h => by cases h)⟩
          · exact ih st3 false rootItems n0 items h1 h2
        | other i =>
          simp only []
          rcases hsk : skipUntilEnd fuel (MTag.other i) st2 with _ | st3
          · exact ⟨(fun h => by cases h), (fun res ri2 st' h => by cases h)⟩
          · exact ih st3 false rootItems n0 items h1 h2
      | rule =>
        apply ih st2 false rootItems n0 (items ++ [SItem.separator])
          (GoodSeq.push_sep h1) ?_
        have hz : linkCount [SItem.separator] = 0 := rfl
        rw [linkCount_append, h2, hz]
        omega
      | stop t => exact ih st2 false rootItems n0 items h1 h2
      | text s => exact ih st2 false rootItems n0 items h1 h2
      | code s => exact ih st2 false rootItems n0 items h1 h2
      | html s => exact ih st2 false rootItems n0 items h1 h2
      | softBreak => exact ih st2 false rootItems n0 items h1 h2
      | hardBreak => exact ih st2 false rootItems n0 items h1 h2
      | taskListMarker b => exact ih st2 false rootItems n0 items h1 h2
      | footnoteReference s => exact ih st2 false rootItems n0 items h1 h2


/-- `parse_parts` with the root section number: it never panics and returns
a good item list starting from the accumulated numbering. -/
theorem parseParts_spec : ∀ (fuel : Nat) (st : PState) (rootItems n0 : Nat)
    (parts : List SItem),
    GoodSeq [] n0 parts → rootItems = n0 + linkCount parts →
    parseParts fuel [] rootItems st parts ≠ .panic ∧
      ∀ res ri2 st',
        parseParts fuel [] rootItems st parts = .ok (res, ri2) st' →
        GoodSeq [] n0 res := by
  intro fuel
  induction fuel with
  | zero =>
    intro st rootItems n0 parts h1 h2
    exact ⟨(fun h => by cases h), (fun res rr st9 h => by cases h)⟩
  | succ fuel ih =>
    intro st rootItems n0 parts h1 h2
    rw [parseParts]
    rcases hn : nextEvent st with ⟨oev, st2⟩
    simp only []
    cases oev with
    | none =>
      exact ⟨(fun h => by cases h), (fun res rr st9 h => by (cases h; exact h1))⟩
    | some ev =>
      have hb : st2.back = none := nextEvent_back_none hn
      cases ev with
      | start t =>
        cases t with
        | paragraph =>
          simp only [pushBack_of_back_none hb]
          exact ⟨(fun h => by cases h), (fun res rr st9 h => by (cases h; exact h1))⟩
        | heading lvl =>
          cases lvl with
          | zero =>
            simp only [pushBack_of_back_none hb]
            rcases hpn : parseNumbered fuel [] rootItems
                ⟨st2.src, st2.stream, st2.offset, some (MEvent.start (MTag.heading 0))⟩ true [] with
                ⟨⟨bunch, ri2⟩, st3⟩ | e | _ | _
            · simp only []
              have hbn := (parseNumbered_spec fuel
                  ⟨st2.src, st2.stream, st2.offset, some (MEvent.start (MTag.heading 0))⟩ true rootItems
                  rootItems [] (GoodSeq.nil _ _) (by simp [linkCount])).2
                  bunch ri2 st3 hpn
              apply ih st3 ri2 n0 (parts ++ bunch) ?_ ?_
              · exact GoodSeq.append h1 (by rw [← h2]; exact hbn.1)
              · rw [linkCount_append, hbn.2, h2]
                omega
            · exact ⟨(fun h => by cases h), (fun res rr st9 h => by cases h)⟩
            · exact absurd hpn (parseNumbered_spec fuel
                ⟨st2.src, st2.stream, st2.offset, some (MEvent.start (MTag.heading 0))⟩ true rootItems
                rootItems [] (GoodSeq.nil _ _) (by simp [linkCount])).1
            · exact ⟨(fun h => by cases h), (fun res rr st9 h => by cases h)⟩
          | succ l2 =>
            cases l2 with
            | zero =>
              simp only []
              rcases hpn : parseNumbered fuel [] rootItems
                  ⟨st2.src, (collectEvents isH1End st2.stream).2, st2.offset,
                    st2.back⟩ true [] with ⟨⟨bunch, ri2⟩, st3⟩ | e | _ | _
              · simp only []
                have hbn := (parseNumbered_spec fuel
                    ⟨st2.src, (collectEvents isH1End st2.stream).2, st2.offset,
                      st2.back⟩ true rootItems rootItems []
                    (GoodSeq.nil _ _) (by simp [linkCount])).2 bunch ri2 st3 hpn
                apply ih st3 ri2 n0
                  (parts ++
                    [SItem.partTitle
                      (stringifyEvents (collectEvents isH1End st2.stream).1)] ++
                    bunch) ?_ ?_
                · refine GoodSeq.append
                    (GoodSeq.append h1
                      (GoodSeq.part _ _ _ _ (GoodSeq.nil _ _))) ?_
                  have hz : linkCount
                      [SItem.partTitle
                        (stringifyEvents (collectEvents isH1End st2.stream).1)] =
                      0 := rfl
                  rw [linkCount_append, hz]
                  have e : n0 + (linkCount parts + 0) = rootItems := by omega
                  rw [e]
                  exact hbn.1
                · have hz : linkCount
                      [SItem.partTitle
                        (stringifyEvents (collectEvents isH1End st2.stream).1)] =
                      0 := rfl
                  rw [linkCount_append, linkCount_append, hz, hbn.2, h2]
                  omega
              · exact ⟨(fun h => by cases h), (fun res rr st9 h => by cases h)⟩
              · exact absurd hpn (parseNumbered_spec fuel
                  ⟨st2.src, (collectEvents isH1End st2.stream).2, st2.offset,
                    st2.back⟩ true rootItems rootItems []
                  (GoodSeq.nil _ _) (by simp [linkCount])).1
              · exact ⟨(fun h => by cases h), (fun res rr st9 h => by cases h)⟩
            | succ l3 =>
              simp only [pushBack_of_back_none hb]
              rcases hpn : parseNumbered fuel [] rootItems
                  ⟨st2.src, st2.stream, st2.offset, some (MEvent.start (MTag.heading (l3 + 2)))⟩ true [] with
                  ⟨⟨bunch, ri2⟩, st3⟩ | e | _ | _
              · simp only []
                have hbn := (parseNumbered_spec fuel
                    ⟨st2.src, st2.stream, st2.offset, some (MEvent.start (MTag.heading (l3 + 2)))⟩ true rootItems
                    rootItems [] (GoodSeq.nil _ _) (by simp [linkCount])).2
                    bunch ri2 st3 hpn
                apply ih st3 ri2 n0 (parts ++ bunch) ?_ ?_
                · exact GoodSeq.append h1 (by rw [← h2]; exact hbn.1)
                · rw [linkCount_append, hbn.2, h2]
                  omega
              · exact ⟨(fun h => by cases h), (fun res rr st9 h => by cases h)⟩
              · exact absurd hpn (parseNumbered_spec fuel
                  ⟨st2.src, st2.stream, st2.offset, some (MEvent.start (MTag.heading (l3 + 2)))⟩ true rootItems
                  rootItems [] (GoodSeq.nil _ _) (by simp [linkCount])).1
              · exact ⟨(fun h => by cases h), (fun res rr st9 h => by cases h)⟩
        | list k =>
          simp only [pushBack_of_back_none hb]
          rcases hpn : parseNumbered fuel [] rootItems
              ⟨st2.src, st2.stream, st2.offset, some (MEvent.start (MTag.list k))⟩ true [] with
              ⟨⟨bunch, ri2⟩, st3⟩ | e | _ | _
          · simp only []
            have hbn := (parseNumbered_spec fuel
                ⟨st2.src, st2.stream, st2.offset, some (MEvent.start (MTag.list k))⟩ true rootItems
                rootItems [] (GoodSeq.nil _ _) (by simp [linkCount])).2
                bunch ri2 st3 hpn
            apply ih st3 ri2 n0 (parts ++ bunch) ?_ ?_
            · exact GoodSeq.append h1 (by rw [← h2]; exact hbn.1)
            · rw [linkCount_append, hbn.2, h2]
              omega
          · exact ⟨(fun h => by cases h), (fun res rr st9 h => by cases h)⟩
          · exact absurd hpn (parseNumbered_spec fuel
              ⟨st2.src, st2.stream, st2.offset, some (MEvent.start (MTag.list k))⟩ true rootItems
              rootItems [] (GoodSeq.nil _ _) (by simp [linkCount])).1
          · exact ⟨(fun h => by cases h), (fun res rr st9 h => by cases h)⟩
        | item  =>
          simp only [pushBack_of_back_none hb]
          rcases hpn : parseNumbered fuel [] rootItems
              ⟨st2.src, st2.stream, st2.offset, some (MEvent.start MTag.item)⟩ true [] with
              ⟨⟨bunch, ri2⟩, st3⟩ | e | _ | _
          · simp only []
            have hbn := (parseNumbered_spec fuel
                ⟨st2.src, st2.stream, st2.offset, some (MEvent.start MTag.item)⟩ true rootItems
                rootItems [] (GoodSeq.nil _ _) (by simp [linkCount])).2
                bunch ri2 st3 hpn
            apply ih st3 ri2 n0 (parts ++ bunch) ?_ ?_
            · exact GoodSeq.append h1 (by rw [← h2]; exact hbn.1)
            · rw [linkCount_append, hbn.2, h2]
              omega
          · exact ⟨(fun h => by cases h), (fun res rr st9 h => by cases h)⟩
          · exact absurd hpn (parseNumbered_spec fuel
              ⟨st2.src, st2.stream, st2.offset, some (MEvent.start MTag.item)⟩ true rootItems
              rootItems [] (GoodSeq.nil _ _) (by simp [linkCount])).1
          · exact ⟨(fun h => by cases h), (fun res rr st9 h => by cases h)⟩
        | link a b c =>
          simp only [pushBack_of_back_none hb]
          rcases hpn : parseNumbered fuel [] rootItems
              ⟨st2.src, st2.stream, st2.offset, some (MEvent.start (MTag.link a b c))⟩ true [] with
              ⟨⟨bunch, ri2⟩, st3⟩ | e | _ | _
          · simp only []
            have hbn := (parseNumbered_spec fuel
                ⟨st2.src, st2.stream, st2.offset, some (MEvent.start (MTag.link a b c))⟩ true rootItems
                rootItems [] (GoodSeq.nil _ _) (by simp [linkCount])).2
                bunch ri2 st3 hpn
            apply ih st3 ri2 n0 (parts ++ bunch) ?_ ?_
            · exact GoodSeq.append h1 (by rw [← h2]; exact hbn.1)
            · rw [linkCount_append, hbn.2, h2]
              omega
          · exact ⟨(fun h => by cases h), (fun res rr st9 h => by cases h)⟩
          · exact absurd hpn (parseNumbered_spec fuel
              ⟨st2.src, st2.stream, st2.offset, some (MEvent.start (MTag.link a b c))⟩ true rootItems
              rootItems [] (GoodSeq.nil _ _) (by simp [linkCount])).1
          · exact ⟨(fun h => by cases h), (fun res rr st9 h => by cases h)⟩
        | image a b c =>
          simp only [pushBack_of_back_none hb]
          rcases hpn : parseNumbered fuel [] rootItems
              ⟨st2.src, st2.stream, st2.offset, some (MEvent.start (MTag.image a b c))⟩ true [] with
              ⟨⟨bunch, ri2⟩, st3⟩ | e | _ | _
          · simp only []
            have hbn := (parseNumbered_spec fuel
                ⟨st2.src, st2.stream, st2.offset, some (MEvent.start (MTag.image a b c))⟩ true rootItems
                rootItems [] (GoodSeq.nil _ _) (by simp [linkCount])).2
                bunch ri2 st3 hpn
            apply ih st3 ri2 n0 (parts ++ bunch) ?_ ?_
            · exact GoodSeq.append h1 (by rw [← h2]; exact hbn.1)
            · rw [linkCount_append, hbn.2, h2]
              omega
          · exact ⟨(fun h => by cases h), (fun res rr st9 h => by cases h)⟩
          · exact absurd hpn (parseNumbered_spec fuel
              ⟨st2.src, st2.stream, st2.offset, some (MEvent.start (MTag.image a b c))⟩ true rootItems
              rootItems [] (GoodSeq.nil _ _) (by simp [linkCount])).1
          · exact ⟨(fun h => by cases h), (fun res rr st9 h => by cases h)⟩
        | codeBlock kk =>
          simp only [pushBack_of_back_none hb]
          rcases hpn : parseNumbered fuel [] rootItems
              ⟨st2.src, st2.stream, st2.offset, some (MEvent.start (MTag.codeBlock kk))⟩ true [] with
              ⟨⟨bunch, ri2⟩, st3⟩ | e | _ | _
          · simp only []
            have hbn := (parseNumbered_spec fuel
                ⟨st2.src, st2.stream, st2.offset, some (MEvent.start (MTag.codeBlock kk))⟩ true rootItems
                rootItems [] (GoodSeq.nil _ _) (by simp [linkCount])).2
                bunch ri2 st3 hpn
            apply ih st3 ri2 n0 (parts ++ bunch) ?_ ?_
            · exact GoodSeq.append h1 (by rw [← h2]; exact hbn.1)
            · rw [linkCount_append, hbn.2, h2]
              omega
          · exact ⟨(fun h => by cases h), (fun res rr st9 h => by cases h)⟩
          · exact absurd hpn (parseNumbered_spec fuel
              ⟨st2.src, st2.stream, st2.offset, some (MEvent.start (MTag.codeBlock kk))⟩ true rootItems
              rootItems [] (GoodSeq.nil _ _) (by simp [linkCount])).1
          · exact ⟨(fun h => by cases h), (fun res rr st9 h => by cases h)⟩
        | other i =>
          simp only [pushBack_of_back_none hb]
          rcases hpn : parseNumbered fuel [] rootItems
              ⟨st2.src, st2.stream, st2.offset, some (MEvent.start (MTag.other i))⟩ true [] with
              ⟨⟨bunch, ri2⟩, st3⟩ | e | _ | _
          · simp only []
            have hbn := (parseNumbered_spec fuel
                ⟨st2.src, st2.stream, st2.offset, some (MEvent.start (MTag.other i))⟩ true rootItems
                rootItems [] (GoodSeq.nil _ _) (by simp [linkCount])).2
                bunch ri2 st3 hpn
            apply ih st3 ri2 n0 (parts ++ bunch) ?_ ?_
            · exact GoodSeq.append h1 (by rw [← h2]; exact hbn.1)
            · rw [linkCount_append, hbn.2, h2]
              omega
          · exact ⟨(fun h => by cases h), (fun res rr st9 h => by cases h)⟩
          · exact absurd hpn (parseNumbered_spec fuel
              ⟨st2.src, st2.stream, st2.offset, some (MEvent.start (MTag.other i))⟩ true rootItems
              rootItems [] (GoodSeq.nil _ _) (by simp [linkCount])).1
          · exact ⟨(fun h => by cases h), (fun res rr st9 h => by cases h)⟩
      | stop t2 =>
          simp only [pushBack_of_back_none hb]
          rcases hpn : parseNumbered fuel [] rootItems
              ⟨st2.src, st2.stream, st2.offset, some (MEvent.stop t2)⟩ true [] with
              ⟨⟨bunch, ri2⟩, st3⟩ | e | _ | _
          · simp only []
            have hbn := (parseNumbered_spec fuel
                ⟨st2.src, st2.stream, st2.offset, some (MEvent.stop t2)⟩ true rootItems
                rootItems [] (GoodSeq.nil _ _) (by simp [linkCount])).2
                bunch ri2 st3 hpn
            apply ih st3 ri2 n0 (parts ++ bunch) ?_ ?_
            · exact GoodSeq.append h1 (by rw [← h2]; exact hbn.1)
            · rw [linkCount_append, hbn.2, h2]
              omega
          · exact ⟨(fun h => by cases h), (fun res rr st9 h => by cases h)⟩
          · exact absurd hpn (parseNumbered_spec fuel
              ⟨st2.src, st2.stream, st2.offset, some (MEvent.stop t2)⟩ true rootItems
              rootItems [] (GoodSeq.nil _ _) (by simp [linkCount])).1
          · exact ⟨(fun h => by cases h), (fun res rr st9 h => by cases h)⟩
      | text s =>
          simp only [pushBack_of_back_none hb]
          rcases hpn : parseNumbered fuel [] rootItems
              ⟨st2.src, st2.stream, st2.offset, some (MEvent.text s)⟩ true [] with
              ⟨⟨bunch, ri2⟩, st3⟩ | e | _ | _
          · simp only []
            have hbn := (parseNumbered_spec fuel
                ⟨st2.src, st2.stream, st2.offset, some (MEvent.text s)⟩ true rootItems
                rootItems [] (GoodSeq.nil _ _) (by simp [linkCount])).2
                bunch ri2 st3 hpn
            apply ih st3 ri2 n0 (parts ++ bunch) ?_ ?_
            · exact GoodSeq.append h1 (by rw [← h2]; exact hbn.1)
            · rw [linkCount_append, hbn.2, h2]
              omega
          · exact ⟨(fun h => by cases h), (fun res rr st9 h => by cases h)⟩
          · exact absurd hpn (parseNumbered_spec fuel
              ⟨st2.src, st2.stream, st2.offset, some (MEvent.text s)⟩ true rootItems
              rootItems [] (GoodSeq.nil _ _) (by simp [linkCount])).1
          · exact ⟨(fun h => by cases h), (fun res rr st9 h => by cases h)⟩
      | code s =>
          simp only [pushBack_of_back_none hb]
          rcases hpn : parseNumbered fuel [] rootItems
              ⟨st2.src, st2.stream, st2.offset, some (MEvent.code s)⟩ true [] with
              ⟨⟨bunch, ri2⟩, st3⟩ | e | _ | _
          · simp only []
            have hbn := (parseNumbered_spec fuel
                ⟨st2.src, st2.stream, st2.offset, some (MEvent.code s)⟩ true rootItems
                rootItems [] (GoodSeq.nil _ _) (by simp [linkCount])).2
                bunch ri2 st3 hpn
            apply ih st3 ri2 n0 (parts ++ bunch) ?_ ?_
            · exact GoodSeq.append h1 (by rw [← h2]; exact hbn.1)
            · rw [linkCount_append, hbn.2, h2]
              omega
          · exact ⟨(fun h => by cases h), (fun res rr st9 h => by cases h)⟩
          · exact absurd hpn (parseNumbered_spec fuel
              ⟨st2.src, st2.stream, st2.offset, some (MEvent.code s)⟩ true rootItems
              rootItems [] (GoodSeq.nil _ _) (by simp [linkCount])).1
          · exact ⟨(fun h => by cases h), (fun res rr st9 h => by cases h)⟩
      | html s =>
          simp only [pushBack_of_back_none hb]
          rcases hpn : parseNumbered fuel [] rootItems
              ⟨st2.src, st2.stream, st2.offset, some (MEvent.html s)⟩ true [] with
              ⟨⟨bunch, ri2⟩, st3⟩ | e | _ | _
          · simp only []
            have hbn := (parseNumbered_spec fuel
                ⟨st2.src, st2.stream, st2.offset, some (MEvent.html s)⟩ true rootItems
                rootItems [] (GoodSeq.nil _ _) (by simp [linkCount])).2
                bunch ri2 st3 hpn
            apply ih st3 ri2 n0 (parts ++ bunch) ?_ ?_
            · exact GoodSeq.append h1 (by rw [← h2]; exact hbn.1)
            · rw [linkCount_append, hbn.2, h2]
              omega
          · exact ⟨(fun h => by cases h), (fun res rr st9 h => by cases h)⟩
          · exact absurd hpn (parseNumbered_spec fuel
              ⟨st2.src, st2.stream, st2.offset, some (MEvent.html s)⟩ true rootItems
              rootItems [] (GoodSeq.nil _ _) (by simp [linkCount])).1
          · exact ⟨(fun h => by cases h), (fun res rr st9 h => by cases h)⟩
      | softBreak =>
          simp only [pushBack_of_back_none hb]
          rcases hpn : parseNumbered fuel [] rootItems
              ⟨st2.src, st2.stream, st2.offset, some (MEvent.softBreak)⟩ true [] with
              ⟨⟨bunch, ri2⟩, st3⟩ | e | _ | _
          · simp only []
            have hbn := (parseNumbered_spec fuel
                ⟨st2.src, st2.stream, st2.offset, some (MEvent.softBreak)⟩ true rootItems
                rootItems [] (GoodSeq.nil _ _) (by simp [linkCount])).2
                bunch ri2 st3 hpn
            apply ih st3 ri2 n0 (parts ++ bunch) ?_ ?_
            · exact GoodSeq.append h1 (by rw [← h2]; exact hbn.1)
            · rw [linkCount_append, hbn.2, h2]
              omega
          · exact ⟨(fun h => by cases h), (fun res rr st9 h => by cases h)⟩
          · exact absurd hpn (parseNumbered_spec fuel
              ⟨st2.src, st2.stream, st2.offset, some (MEvent.softBreak)⟩ true rootItems
              rootItems [] (GoodSeq.nil _ _) (by simp [linkCount])).1
          · exact ⟨(fun h => by cases h), (fun res rr st9 h => by cases h)⟩
      | hardBreak =>
          simp only [pushBack_of_back_none hb]
          rcases hpn : parseNumbered fuel [] rootItems
              ⟨st2.src, st2.stream, st2.offset, some (MEvent.hardBreak)⟩ true [] with
              ⟨⟨bunch, ri2⟩, st3⟩ | e | _ | _
          · simp only []
            have hbn := (parseNumbered_spec fuel
                ⟨st2.src, st2.stream, st2.offset, some (MEvent.hardBreak)⟩ true rootItems
                rootItems [] (GoodSeq.nil _ _) (by simp [linkCount])).2
                bunch ri2 st3 hpn
            apply ih st3 ri2 n0 (parts ++ bunch) ?_ ?_
            · exact GoodSeq.append h1 (by rw [← h2]; exact hbn.1)
            · rw [linkCount_append, hbn.2, h2]
              omega
          · exact ⟨(fun h => by cases h), (fun res rr st9 h => by cases h)⟩
          · exact absurd hpn (parseNumbered_spec fuel
              ⟨st2.src, st2.stream, st2.offset, some (MEvent.hardBreak)⟩ true rootItems
              rootItems [] (GoodSeq.nil _ _) (by simp [linkCount])).1
          · exact ⟨(fun h => by cases h), (fun res rr st9 h => by cases h)⟩
      | rule =>
          simp only [pushBack_of_back_none hb]
          rcases hpn : parseNumbered fuel [] rootItems
              ⟨st2.src, st2.stream, st2.offset, some (MEvent.rule)⟩ true [] with
              ⟨⟨bunch, ri2⟩, st3⟩ | e | _ | _
          · simp only []
            have hbn := (parseNumbered_spec fuel
                ⟨st2.src, st2.stream, st2.offset, some (MEvent.rule)⟩ true rootItems
                rootItems [] (GoodSeq.nil _ _) (by simp [linkCount])).2
                bunch ri2 st3 hpn
            apply ih st3 ri2 n0 (parts ++ bunch) ?_ ?_
            · exact GoodSeq.append h1 (by rw [← h2]; exact hbn.1)
            · rw [linkCount_append, hbn.2, h2]
              omega
          · exact ⟨(fun h => by cases h), (fun res rr st9 h => by cases h)⟩
          · exact absurd hpn (parseNumbered_spec fuel
              ⟨st2.src, st2.stream, st2.offset, some (MEvent.rule)⟩ true rootItems
              rootItems [] (GoodSeq.nil _ _) (by simp [linkCount])).1
          · exact ⟨(fun h => by cases h), (fun res rr st9 h => by cases h)⟩
      | taskListMarker b =>
          simp only [pushBack_of_back_none hb]
          rcases hpn : parseNumbered fuel [] rootItems
              ⟨st2.src, st2.stream, st2.offset, some (MEvent.taskListMarker b)⟩ true [] with
              ⟨⟨bunch, ri2⟩, st3⟩ | e | _ | _
          · simp only []
            have hbn := (parseNumbered_spec fuel
                ⟨st2.src, st2.stream, st2.offset, some (MEvent.taskListMarker b)⟩ true rootItems
                rootItems [] (GoodSeq.nil _ _) (by simp [linkCount])).2
                bunch ri2 st3 hpn
            apply ih st3 ri2 n0 (parts ++ bunch) ?_ ?_
            · exact GoodSeq.append h1 (by rw [← h2]; exact hbn.1)
            · rw [linkCount_append, hbn.2, h2]
              omega
          · exact ⟨(fun h => by cases h), (fun res rr st9 h => by cases h)⟩
          · exact absurd hpn (parseNumbered_spec fuel
              ⟨st2.src, st2.stream, st2.offset, some (MEvent.taskListMarker b)⟩ true rootItems
              rootItems [] (GoodSeq.nil _ _) (by simp [linkCount])).1
          · exact ⟨(fun h => by cases h), (fun res rr st9 h => by cases h)⟩
      | footnoteReference s =>
          simp only [pushBack_of_back_none hb]
          rcases hpn : parseNumbered fuel [] rootItems
              ⟨st2.src, st2.stream, st2.offset, some (MEvent.footnoteReference s)⟩ true [] with
              ⟨⟨bunch, ri2⟩, st3⟩ | e | _ | _
          · simp only []
            have hbn := (parseNumbered_spec fuel
                ⟨st2.src, st2.stream, st2.offset, some (MEvent.footnoteReference s)⟩ true rootItems
                rootItems [] (GoodSeq.nil _ _) (by simp [linkCount])).2
                bunch ri2 st3 hpn
            apply ih st3 ri2 n0 (parts ++ bunch) ?_ ?_
            · exact GoodSeq.append h1 (by rw [← h2]; exact hbn.1)
            · rw [linkCount_append, hbn.2, h2]
              omega
          · exact ⟨(fun h => by cases h), (fun res rr st9 h => by cases h)⟩
          · exact absurd hpn (parseNumbered_spec fuel
              ⟨st2.src, st2.stream, st2.offset, some (MEvent.footnoteReference s)⟩ true rootItems
              rootItems [] (GoodSeq.nil _ _) (by simp [linkCount])).1
          · exact ⟨(fun h => by cases h), (fun res rr st9 h => by cases h)⟩


/-- `parse_affix` never panics: every pushback happens right after an event
was taken, when the slot is empty. -/
theorem parseAffix_no_panic : ∀ (fuel : Nat) (isPre : Bool) (st : PState)
    (items : List SItem), parseAffix fuel isPre st items ≠ .panic := by
  intro fuel
  induction fuel with
  | zero => intro isPre st items h; cases h
  | succ fuel ih =>
    intro isPre st items
    rw [parseAffix]
    rcases hn : nextEvent st with ⟨oev, st2⟩
    simp only []
    cases oev with
    | none => intro h; cases h
    | some ev =>
      have hb : st2.back = none := nextEvent_back_none hn
      cases ev with
      | start t =>
        cases t with
        | list k =>
          cases isPre with
          | true =>
            simp only [if_true, pushBack_of_back_none hb]
            intro h; cases h
          | false =>
            simp only [Bool.false_eq_true, if_false]
            intro h; cases h
        | heading lvl =>
          cases lvl with
          | zero => exact ih isPre st2 items
          | succ l2 =>
            cases l2 with
            | zero =>
              cases isPre with
              | true =>
                simp only [if_true, pushBack_of_back_none hb]
                intro h; cases h
              | false =>
                simp only [Bool.false_eq_true, if_false]
                intro h; cases h
            | succ l3 => exact ih isPre st2 items
        | link a b c => exact ih isPre _ _
        | paragraph => exact ih isPre st2 items
        | item => exact ih isPre st2 items
        | image a b c => exact ih isPre st2 items
        | codeBlock kk => exact ih isPre st2 items
        | other i => exact ih isPre st2 items
      | rule => exact ih isPre st2 (items ++ [SItem.separator])
      | stop t2 => exact ih isPre st2 items
      | text s => exact ih isPre st2 items
      | code s => exact ih isPre st2 items
      | html s => exact ih isPre st2 items
      | softBreak => exact ih isPre st2 items
      | hardBreak => exact ih isPre st2 items
      | taskListMarker b => exact ih isPre st2 items
      | footnoteReference s => exact ih isPre st2 items

/-- `parse_title` never panics. -/
theorem parseTitle_no_panic : ∀ (fuel : Nat) (st : PState),
    parseTitle fuel st ≠ .panic := by
  intro fuel
  induction fuel with
  | zero => intro st h; cases h
  | succ fuel ih =>
    intro st
    rw [parseTitle]
    rcases hn : nextEvent st with ⟨oev, st2⟩
    simp only []
    cases oev with
    | none => intro h; cases h
    | some ev =>
      have hb : st2.back = none := nextEvent_back_none hn
      cases ev with
      | start t =>
        cases t with
        | heading lvl =>
          cases lvl with
          | zero =>
            simp only [pushBack_of_back_none hb]
            intro h; cases h
          | succ l2 =>
            cases l2 with
            | zero => intro h; cases h
            | succ l3 =>
              simp only [pushBack_of_back_none hb]
              intro h; cases h
        | list k =>
          simp only [pushBack_of_back_none hb]
          intro h; cases h
        | paragraph =>
          simp only [pushBack_of_back_none hb]
          intro h; cases h
        | item =>
          simp only [pushBack_of_back_none hb]
          intro h; cases h
        | link a b c =>
          simp only [pushBack_of_back_none hb]
          intro h; cases h
        | image a b c =>
          simp only [pushBack_of_back_none hb]
          intro h; cases h
        | codeBlock kk =>
          simp only [pushBack_of_back_none hb]
          intro h; cases h
        | other i =>
          simp only [pushBack_of_back_none hb]
          intro h; cases h
      | html s => exact ih st2
      | stop t2 =>
        simp only [pushBack_of_back_none hb]
        intro h; cases h
      | text s =>
        simp only [pushBack_of_back_none hb]
        intro h; cases h
      | code s =>
        simp only [pushBack_of_back_none hb]
        intro h; cases h
      | softBreak =>
        simp only [pushBack_of_back_none hb]
        intro h; cases h
      | hardBreak =>
        simp only [pushBack_of_back_none hb]
        intro h; cases h
      | rule =>
        simp only [pushBack_of_back_none hb]
        intro h; cases h
      | taskListMarker b =>
        simp only [pushBack_of_back_none hb]
        intro h; cases h
      | footnoteReference s =>
        simp only [pushBack_of_back_none hb]
        intro h; cases h

/-- C9: the pushback slot holds at most one event.  The parser never runs
into the double-pushback assertion (or any other modelled panic) on any
input, and `next_event` always hands out the buffered event, clearing the
slot, before reading from the stream. -/
theorem c9_pushback_safety :
    (∀ (fuel : Nat) (src : List Char) (events : List (MEvent × Nat)),
        (parseSummary fuel src events).isPanic = false) ∧
      ∀ (src : List Char) (stream : List (MEvent × Nat)) (offset : Nat)
        (ev : MEvent),
        nextEvent ⟨src, stream, offset, some ev⟩ =
          (some ev, ⟨src, stream, offset, none⟩) := by
  constructor
  · intro fuel src events
    rw [parseSummary]
    rcases ht : parseTitle fuel ⟨src, events, 0, none⟩ with ⟨title, st1⟩ | e | _ | _
    · simp only []
      rcases ha : parseAffix fuel true st1 [] with ⟨pre, st2⟩ | e | _ | _
      · simp only []
        rcases hp : parseParts fuel [] 0 st2 [] with ⟨⟨numbered, ri⟩, st3⟩ | e | _ | _
        · simp only []
          rcases ha2 : parseAffix fuel false st3 [] with ⟨suf, st4⟩ | e | _ | _
          · rfl
          · rfl
          · exact absurd ha2 (parseAffix_no_panic fuel false st3 [])
          · rfl
        · rfl
        · exact absurd hp (parseParts_spec fuel st2 0 0 [] (GoodSeq.nil _ _)
            (by simp [linkCount])).1
        · rfl
      · rfl
      · exact absurd ha (parseAffix_no_panic fuel true st1 [])
      · rfl
    · rfl
    · exact absurd ht (parseTitle_no_panic fuel ⟨src, events, 0, none⟩)
    · rfl
  · intro src stream offset ev
    rfl

/-- C2: for every input the parser accepts, the section numbers of the links
of `numbered_chapters` are exactly 1, 2, 3, ... at each nesting level in
source order (separators and part titles ignored), not resetting at part
boundaries, and every nested link's number extends its parent's number by
its 1-based sibling index. -/
theorem c2_section_numbers_invariant (fuel : Nat) (src : List Char)
    (events : List (MEvent × Nat)) (s : Summary)
    (h : resultSummary (parseSummary fuel src events) = some s) :
    GoodSeq [] 0 s.numbered_chapters := by
  rw [parseSummary] at h
  rcases ht : parseTitle fuel ⟨src, events, 0, none⟩ with ⟨title, st1⟩ | e | _ | _ <;>
    rw [ht] at h <;> simp only [] at h
  · rcases ha : parseAffix fuel true st1 [] with ⟨pre, st2⟩ | e | _ | _ <;>
      rw [ha] at h <;> simp only [] at h
    · rcases hp : parseParts fuel [] 0 st2 [] with ⟨⟨numbered, ri⟩, st3⟩ | e | _ | _ <;>
        rw [hp] at h <;> simp only [] at h
      · rcases ha2 : parseAffix fuel false st3 [] with ⟨suf, st4⟩ | e | _ | _ <;>
          rw [ha2] at h <;> simp only [] at h
        · simp only [resultSummary, Option.some.injEq] at h
          subst h
          exact (parseParts_spec fuel st2 0 0 [] (GoodSeq.nil _ _)
            (by simp [linkCount])).2 numbered ri st3 hp
        · simp [resultSummary] at h
        · simp [resultSummary] at h
        · simp [resultSummary] at h
      · simp [resultSummary] at h
      · simp [resultSummary] at h
      · simp [resultSummary] at h
    · simp [resultSummary] at h
    · simp [resultSummary] at h
    · simp [resultSummary] at h
  · simp [resultSummary] at h
  · simp [resultSummary] at h
  · simp [resultSummary] at h

/-- C2 (witness): the invariant instantiated on the end-to-end example,
whose numbered chapters carry numbers 1, 1.1 and 2. -/
theorem c2_section_numbers_invariant_witness :
    GoodSeq [] 0
      [SItem.partTitle "Part One",
       SItem.link "Chapter 1" (some "ch1.md") (some [1])
         [SItem.link "Chapter 1a" (some "ch1a.md") (some [1, 1]) []],
       SItem.link "Chapter 2" (some "ch2.md") (some [2]) []] :=
  c2_section_numbers_invariant 200 srcC1 eventsC1
    ⟨some "Summary",
      [SItem.link "Introduction" (some "intro.md") none []],
      [SItem.partTitle "Part One",
       SItem.link "Chapter 1" (some "ch1.md") (some [1])
         [SItem.link "Chapter 1a" (some "ch1a.md") (some [1, 1]) []],
       SItem.link "Chapter 2" (some "ch2.md") (some [2]) []],
      []⟩ (by rfl)

end Importers
